import Mathlib

/-!
Verification development for the 3dModelsBrowser catalog-build pipeline.

The definitions below are a shallow embedding of the two build scripts:
`scripts/extract-model-data.js` (directory crawl, config classification,
release inheritance, stable identity, image resolution) and
`scripts/build-nextjs-app.js` (incremental build cache and image
materialization).  JavaScript strings are Lean `String`s, `null`/missing
object fields are `Option`, JS `Map`/object dictionaries are association
lists in insertion order, and the filesystem is a record of the three
query functions the scripts use (`readdirSync`, `existsSync`,
`statSync(..).isDirectory()`).  The MD5 function from node's `crypto` is
an explicit parameter `md5hex : String → String` threaded through every
definition that hashes.  Timestamps (`new Date().toISOString()`) are
explicit `now : String` parameters.
-/

namespace ModelsBrowser

/-- JS `s.startsWith(p)` as a character-sequence prefix test. -/
def jsStartsWith (s p : String) : Bool := p.toList.isPrefixOf s.toList

/-- JS `s.includes(sub)` as a character-sequence infix test. -/
def strContains (s sub : String) : Bool := decide (sub.toList <:+: s.toList)

/-- JS `x || d` on a nullable string: `null`/missing and the empty string
fall back to the default. -/
def jsOr (o : Option String) (d : String) : String :=
  match o with
  | some s => if s = "" then d else s
  | none => d

/-- Lookup in a JS `Map` modelled as an insertion-ordered association list:
`Map.set` overwrites, so the last binding for a key wins. -/
def lookupLast (l : List (String × String)) (k : String) : Option String :=
  l.reverse.lookup k

/-- JS `s.toLowerCase()` (ASCII, which is all the pipeline compares). -/
def lower (s : String) : String := ⟨s.toList.map Char.toLower⟩

/-- Split a character list on a separator character. -/
def splitChars (sep : Char) : List Char → List (List Char)
  | [] => [[]]
  | c :: cs =>
    if c = sep then [] :: splitChars sep cs
    else
      match splitChars sep cs with
      | [] => [[c]]
      | h :: t => (c :: h) :: t

/-- `s.split(sep)` for a one-character separator. -/
def splitOnSep (s : String) (sep : Char) : List String :=
  (splitChars sep s.toList).map fun l => (⟨l⟩ : String)

/-- Whitespace trim, as JS `s.trim()`. -/
def trimStr (s : String) : String :=
  ⟨((s.toList.dropWhile Char.isWhitespace).reverse.dropWhile Char.isWhitespace).reverse⟩

/-- `path.join(a, b)` for the clean one-segment joins the scripts perform. -/
def pathJoin (a b : String) : String := a ++ "/" ++ b

/-- `path.dirname` on `/`-separated paths. -/
def dirname (p : String) : String :=
  let parts := splitOnSep p '/'
  if parts.length ≤ 1 then "." else
    let front := parts.dropLast
    if front = [""] then "/" else String.intercalate "/" front

/-- `path.basename` on `/`-separated paths. -/
def basename (p : String) : String := (splitOnSep p '/').getLastD p

/-- `path.relative(root, p)` for the only case the pipeline exercises:
`p` equal to or nested under `root`. -/
def relativeTo (root p : String) : String :=
  if p = root then ""
  else if jsStartsWith p (root ++ "/") then ⟨p.toList.drop (root.toList.length + 1)⟩
  else p

/-- Index of the last `.` in a file name, if any. -/
def lastDotIdx (l : List Char) : Option Nat :=
  (l.enum.filter (fun ic => ic.2 = '.')).getLast? |>.map (·.1)

/-- `path.extname` on a bare file name: the suffix from the last dot,
empty when there is no dot or the name starts with its only dot. -/
def extOfName (f : String) : String :=
  match lastDotIdx f.toList with
  | none => ""
  | some 0 => ""
  | some i => ⟨f.toList.drop i⟩

/-- Lowercased extension, as the scripts compute `path.extname(f).toLowerCase()`. -/
def extLower (f : String) : String := lower (extOfName f)

/-- `path.basename(f, ext)`: strips `ext` only when it is literally a suffix. -/
def stripSuffixStr (f sfx : String) : String :=
  if sfx.toList.isSuffixOf f.toList then ⟨f.toList.take (f.toList.length - sfx.toList.length)⟩
  else f

/-- One character of `name.toLowerCase().replace(/[^a-z0-9]/g, '-')`. -/
def slugChar (c : Char) : Char :=
  let lc := c.toLower
  if ('a' ≤ lc ∧ lc ≤ 'z') ∨ ('0' ≤ lc ∧ lc ≤ '9') then lc else '-'

/-- `name.toLowerCase().replace(/[^a-z0-9]/g, '-')` from `generateStableId`. -/
def normalizeSlug (s : String) : String := ⟨s.toList.map slugChar⟩

/-- `name.toLowerCase().replace(/[^a-z0-9]/g, '')` from `findAlternativeImage`. -/
def normalizeStrip (s : String) : String :=
  ⟨(s.toList.map Char.toLower).filter fun c => ('a' ≤ c ∧ c ≤ 'z') ∨ ('0' ≤ c ∧ c ≤ '9')⟩

/-- A `{key, value}` attribute entry of a config document. -/
structure AttrKV where
  key : String
  value : String
deriving DecidableEq, Repr

/-- The `scancfg` section of a `config.orynt3d` document; the nested
`attributes.include` and `tags.include` lists are optional. -/
structure ScanCfgSec where
  attributesInclude : Option (List AttrKV)
  tagsInclude : Option (List String)
deriving DecidableEq, Repr

/-- The `modelmeta` section of a `config.orynt3d` document; every field is
nullable in the JSON. -/
structure ModelMetaSec where
  name : Option String
  notes : Option String
  tags : Option (List String)
  collections : Option (List String)
  attributes : Option (List AttrKV)
  cover : Option String
deriving DecidableEq, Repr

/-- A parsed `config.orynt3d` document.  Either top-level section may be
missing from the JSON object, which the scripts guard with truthiness
checks. -/
structure ConfigDoc where
  scancfg : Option ScanCfgSec
  modelmeta : Option ModelMetaSec
deriving DecidableEq, Repr

/-- `isReleaseConfig` from extract-model-data.js: requires both sections to
be present, then tests `scancfg.attributes.include` for a `release` or
`subscription` key. -/
def isReleaseConfig (c : ConfigDoc) : Bool :=
  match c.scancfg, c.modelmeta with
  | some sc, some _ =>
    match sc.attributesInclude with
    | some incl => incl.any fun a => a.key == "release" || a.key == "subscription"
    | none => false
  | _, _ => false

/-- `isValidModelConfig` from extract-model-data.js: `modelmeta.name` is
non-null, or `modelmeta.cover` is a non-empty string. -/
def isValidModelConfig (c : ConfigDoc) : Bool :=
  match c.modelmeta with
  | some mm =>
    mm.name.isSome ||
      (match mm.cover with
       | some cov => cov ≠ ""
       | none => false)
  | none => false

/-- Classification outcome of a config document. -/
inductive ConfigClass where
  | Release : ConfigClass
  | Model : ConfigClass
  | Ignored : ConfigClass
deriving DecidableEq, Repr

/-- The classification order of `processModelConfigs`: the release test is
checked first, then the model test; documents failing both are skipped. -/
def classify (c : ConfigDoc) : ConfigClass :=
  if isReleaseConfig c then ConfigClass.Release
  else if isValidModelConfig c then ConfigClass.Model
  else ConfigClass.Ignored

/-- The filesystem as the three query operations the scripts perform.
`readdir` models `fs.readdirSync` (entry names of a directory),
`existsSync` models `fs.existsSync`, and `isDir` models
`fs.statSync(p).isDirectory()`. -/
structure FileSys where
  readdir : String → List String
  existsSync : String → Bool
  isDir : String → Bool

/-- The fixed list of image extensions used by both scripts. -/
def imageExtensions : List String := [".png", ".jpg", ".jpeg", ".webp", ".gif"]

/-- The child directories probed for images as a last resort. -/
def imageSubdirs : List String := ["images", "thumbnails", "preview", "previews"]

/-- `findCoverImage` from extract-model-data.js.  Each JS `for .. return`
loop is a first-match scan, rendered with `List.find?`; the five priority
levels run in source order and the function returns `none` when all fail.
The directory listing is empty when the directory does not exist, exactly
as the script guards with `fs.existsSync(modelDir)`. -/
def findCoverImage (fs : FileSys) (modelDir : String) (coverFilename : Option String) :
    Option String :=
  let files := if fs.existsSync modelDir then fs.readdir modelDir else []
  -- PRIORITY 1: any .png whose lowercased name starts with "fn" or contains "preview"
  match files.find? (fun f =>
      extLower f == ".png" &&
        (jsStartsWith (lower f) "fn" || strContains (lower f) "preview")) with
  | some f => some (pathJoin modelDir f)
  | none =>
  -- PRIORITY 2: any .png
  match files.find? (fun f => extLower f == ".png") with
  | some f => some (pathJoin modelDir f)
  | none =>
  -- PRIORITY 3: the configured cover, verbatim, then with common extensions
  let p3 : Option String :=
    match coverFilename with
    | some cover =>
      if cover ≠ "" then
        if fs.existsSync (pathJoin modelDir cover) then some (pathJoin modelDir cover)
        else if extOfName cover == "" then
          (imageExtensions.find? fun ext =>
              fs.existsSync (pathJoin modelDir (cover ++ ext))).map
            fun ext => pathJoin modelDir (cover ++ ext)
        else none
      else none
    | none => none
  match p3 with
  | some p => some p
  | none =>
  -- PRIORITY 4: any file with an image extension
  match files.find? (fun f => imageExtensions.contains (extLower f)) with
  | some f => some (pathJoin modelDir f)
  | none =>
  -- PRIORITY 5: any image inside a known image subdirectory
  imageSubdirs.findSome? fun d =>
    let dp := pathJoin modelDir d
    if fs.existsSync dp && fs.isDir dp then
      (fs.readdir dp |>.find? fun f => imageExtensions.contains (extLower f)).map
        (pathJoin dp)
    else none

/-- `findAlternativeImage` from build-nextjs-app.js: png first, then an
image whose stripped name overlaps the model name, then common cover
names, then any image, then known image subdirectories. -/
def findAlternativeImage (fs : FileSys) (modelDir modelName : String) : Option String :=
  if !fs.existsSync modelDir then none else
  let files := fs.readdir modelDir
  match files.find? (fun f => extLower f == ".png") with
  | some f => some (pathJoin modelDir f)
  | none =>
  let byName : Option String :=
    if modelName ≠ "" then
      let normalized := normalizeStrip modelName
      (files.find? fun f =>
          let ext := extLower f
          imageExtensions.contains ext &&
            (let baseName := normalizeStrip (lower (stripSuffixStr f ext))
             strContains baseName normalized || strContains normalized baseName)).map
        (pathJoin modelDir)
    else none
  match byName with
  | some p => some p
  | none =>
  match ["cover", "thumbnail", "preview", "main"].findSome? (fun coverName =>
      (files.find? fun f =>
          let ext := extLower f
          imageExtensions.contains ext &&
            strContains (lower (stripSuffixStr f ext)) coverName).map
        (pathJoin modelDir)) with
  | some p => some p
  | none =>
  match files.find? (fun f => imageExtensions.contains (extLower f)) with
  | some f => some (pathJoin modelDir f)
  | none =>
  imageSubdirs.findSome? fun d =>
    let dp := pathJoin modelDir d
    if fs.existsSync dp && fs.isDir dp then
      (fs.readdir dp |>.find? fun f => imageExtensions.contains (extLower f)).map
        (pathJoin dp)
    else none

/-- A resolved catalog record, as assembled by `processModelConfig` and
persisted in `orynt3d-data.json`.  Optional JSON fields are `Option`. -/
structure ModelEntry where
  id : String
  name : String
  notes : String
  tags : List String
  collections : List String
  attributes : List AttrKV
  sourcePath : String
  relativeSourcePath : String
  dateAdded : String
  directoryCollection : Option String
  image : Option String
  release : Option String
  subscription : Option String
deriving DecidableEq, Repr

/-- `generateStableId` from extract-model-data.js: a lowercase slug of the
name, a dash, and the first eight hex characters of the MD5 of
`name + "-" + relativePath`. -/
def generateStableId (md5hex : String → String) (root name configPath : String) : String :=
  let relativePath := relativeTo root configPath
  let sourceToHash := name ++ "-" ++ relativePath
  let hash := (md5hex sourceToHash).take 8
  normalizeSlug name ++ "-" ++ hash

/-- The `modelmeta` section of a config, defaulting to all-null; model
configs always have the section (`isValidModelConfig` requires it). -/
def emptyModelMeta : ModelMetaSec := ⟨none, none, none, none, none, none⟩

/-- Convenience accessor for a config's `modelmeta` section. -/
def mmOf (cfg : ConfigDoc) : ModelMetaSec := cfg.modelmeta.getD emptyModelMeta

/-- The directory-derived fallback name of `processModelConfig`: the last
non-blank segment of the relative directory, else the directory basename. -/
def fallbackDirName (root configPath : String) : String :=
  let modelDir := dirname configPath
  let relativePath := relativeTo root configPath
  let dirStructure := splitOnSep (dirname relativePath) '/'
  let dirName := basename modelDir
  match (dirStructure.filter fun seg => trimStr seg ≠ "").getLast? with
  | some s => s
  | none => dirName

/-- The name `processModelConfig` resolves: `modelmeta.name || fallback`. -/
def resolvedName (root : String) (cfg : ConfigDoc) (configPath : String) : String :=
  jsOr (mmOf cfg).name (fallbackDirName root configPath)

/-- The stable id `processModelConfig` assigns. -/
def modelIdOf (md5hex : String → String) (root : String) (cfg : ConfigDoc)
    (configPath : String) : String :=
  generateStableId md5hex root (resolvedName root cfg configPath) configPath

/-- The filesystem image search of `processModelConfig`: the configured
cover first (when truthy), then an unconstrained search. -/
def fsImageSearch (fs : FileSys) (cfg : ConfigDoc) (configPath : String) : Option String :=
  let modelDir := dirname configPath
  let fromCover : Option String :=
    match (mmOf cfg).cover with
    | some cover => if cover ≠ "" then findCoverImage fs modelDir (some cover) else none
    | none => none
  match fromCover with
  | some ci => some ci
  | none => findCoverImage fs modelDir none

/-- The image `processModelConfig` records: a web-friendly path preserved
from the prior data file when one exists for this id, else the filesystem
search result. -/
def extractImage (md5hex : String → String) (fs : FileSys)
    (existing : List (String × String)) (root : String) (cfg : ConfigDoc)
    (configPath : String) : Option String :=
  let preserved : Option String :=
    match lookupLast existing (modelIdOf md5hex root cfg configPath) with
    | some img =>
      if jsStartsWith img "/images/" || jsStartsWith img "http" then some img else none
    | none => none
  match preserved with
  | some img => some img
  | none => fsImageSearch fs cfg configPath

/-- One release-config attribute applied to a model: `release` and
`subscription` keys are promoted to top-level fields unconditionally, and
the attribute is appended to the attributes array only when its key is
absent there. -/
def applyAttr (m : ModelEntry) (attr : AttrKV) : ModelEntry :=
  let m1 :=
    if attr.key = "release" then { m with release := some attr.value }
    else if attr.key = "subscription" then { m with subscription := some attr.value }
    else m
  if m1.attributes.any (fun ex => ex.key == attr.key) then m1
  else { m1 with attributes := m1.attributes ++ [attr] }

/-- One release-config tag applied to a model: appended only when absent. -/
def applyTag (m : ModelEntry) (tag : String) : ModelEntry :=
  if m.tags.contains tag then m else { m with tags := m.tags ++ [tag] }

/-- One applicable release config merged into a model, as in the loop of
`processModelConfig`: its attributes first, then its tags. -/
def applyRelease (m : ModelEntry) (rc : ConfigDoc) : ModelEntry :=
  let m1 :=
    match rc.scancfg with
    | some sc =>
      match sc.attributesInclude with
      | some incl => incl.foldl applyAttr m
      | none => m
    | none => m
  match rc.scancfg with
  | some sc =>
    match sc.tagsInclude with
    | some tl => tl.foldl applyTag m1
    | none => m1
  | none => m1

/-- All applicable release configs merged in discovery order. -/
def applyReleaseConfigs (m : ModelEntry) (rels : List ConfigDoc) : ModelEntry :=
  rels.foldl applyRelease m

/-- The base record `processModelConfig` assembles from the model's own
config before the release merge: own metadata, provenance paths, the
directory-derived collection, the freshly stamped `dateAdded`, and the
preserved-or-resolved image. -/
def baseModelEntry (md5hex : String → String) (root now : String) (fs : FileSys)
    (existing : List (String × String)) (cfg : ConfigDoc) (configPath : String) :
    ModelEntry :=
  { id := modelIdOf md5hex root cfg configPath
    name := resolvedName root cfg configPath
    notes := jsOr (mmOf cfg).notes ""
    tags := (mmOf cfg).tags.getD []
    collections := (mmOf cfg).collections.getD []
    attributes := (mmOf cfg).attributes.getD []
    sourcePath := configPath
    relativeSourcePath := relativeTo root configPath
    dateAdded := now
    directoryCollection :=
      match splitOnSep (dirname (relativeTo root configPath)) '/' with
      | [] => none
      | h :: _ => if h = "" then none else some h
    image := extractImage md5hex fs existing root cfg configPath
    release := none
    subscription := none }

/-- `processModelConfig` from extract-model-data.js: assemble the base
record from the model's own config, preserve or resolve its image, stamp
`dateAdded` with the current time, then merge the applicable releases. -/
def processModelConfig (md5hex : String → String) (root now : String) (fs : FileSys)
    (existing : List (String × String)) (cfg : ConfigDoc) (configPath : String)
    (rels : List ConfigDoc) : ModelEntry :=
  applyReleaseConfigs (baseModelEntry md5hex root now fs existing cfg configPath) rels

/-- First pass (`analyzeConfigFiles`): the release configs in discovery
order, each with the directory it governs. -/
def analyzeConfigFiles (cfgs : List (String × ConfigDoc)) : List (String × ConfigDoc) :=
  cfgs.filterMap fun pc =>
    if isReleaseConfig pc.2 then some (dirname pc.1, pc.2) else none

/-- The containment test of `findApplicableReleaseConfigs`: same directory,
or nested strictly below it (`modelDir.startsWith(releaseDir + path.sep)`). -/
def dirApplies (releaseDir modelDir : String) : Bool :=
  modelDir == releaseDir || jsStartsWith modelDir (releaseDir ++ "/")

/-- `findApplicableReleaseConfigs`: every stored release config whose
governed directory contains the model's directory, in discovery order. -/
def findApplicableReleaseConfigs (rels : List (String × ConfigDoc))
    (modelConfigPath : String) : List ConfigDoc :=
  let modelDir := dirname modelConfigPath
  (rels.filter fun rc => dirApplies rc.1 modelDir).map (·.2)

/-- Second pass (`processModelConfigs`): skip release configs, process
valid model configs, silently drop the rest. -/
def processModelConfigs (md5hex : String → String) (root now : String) (fs : FileSys)
    (existing : List (String × String)) (cfgs : List (String × ConfigDoc)) :
    List ModelEntry :=
  let rels := analyzeConfigFiles cfgs
  cfgs.filterMap fun pc =>
    if isReleaseConfig pc.2 then none
    else if isValidModelConfig pc.2 then
      some (processModelConfig md5hex root now fs existing pc.2 pc.1
        (findApplicableReleaseConfigs rels pc.1))
    else none

/-- The `scanStats` block the extractor writes into the data file.
`directoriesScanned` and `totalFilesFound` are the crawl counters and
`scanDurationSeconds` is wall-clock timing; all three are inputs of the
embedded run because the crawl itself is summarized by the discovered
config list. -/
structure ScanStats where
  directoriesScanned : Nat
  totalFilesFound : Nat
  configFilesFound : Nat
  releaseConfigsFound : Nat
  scanDurationSeconds : String
deriving DecidableEq, Repr

/-- The persisted catalog (`orynt3d-data.json`). -/
structure Catalog where
  models : List ModelEntry
  lastUpdated : String
  totalCount : Nat
  scanStats : ScanStats
deriving DecidableEq, Repr

/-- `loadExistingDataFile`: the id-to-image map taken from a prior catalog,
keeping only models with a truthy id and a truthy image. -/
def imageMapOf (cat : Catalog) : List (String × String) :=
  cat.models.filterMap fun m =>
    match m.image with
    | some img => if m.id = "" ∨ img = "" then none else some (m.id, img)
    | none => none

/-- The prior-image map the extractor loads: from the previous catalog
when one exists, else empty. -/
def existingOf (prior : Option Catalog) : List (String × String) :=
  match prior with
  | some c => imageMapOf c
  | none => []

/-- The per-model step of `loadExistingDataFile`: keep `(id, image)` when
both are truthy. -/
def imfFun (m : ModelEntry) : Option (String × String) :=
  match m.image with
  | some img => if m.id = "" ∨ img = "" then none else some (m.id, img)
  | none => none

/-- `mainExtractModelData` without the file I/O: build the model list from
the discovered configs and wrap it with the scan metadata. -/
def extractionRun (md5hex : String → String) (root now : String) (fs : FileSys)
    (prior : Option Catalog) (cfgs : List (String × ConfigDoc))
    (dirsScanned filesFound : Nat) (scanDuration : String) : Catalog :=
  let existing := match prior with
    | some c => imageMapOf c
    | none => []
  let models := processModelConfigs md5hex root now fs existing cfgs
  { models := models
    lastUpdated := now
    totalCount := models.length
    scanStats :=
      { directoriesScanned := dirsScanned
        totalFilesFound := filesFound
        configFilesFound := cfgs.length
        releaseConfigsFound := (analyzeConfigFiles cfgs).length
        scanDurationSeconds := scanDuration } }

/-- One record of the build cache (`.build-cache.json`). -/
structure CacheEntry where
  hash : String
  lastProcessed : String
  imagePath : Option String
deriving DecidableEq, Repr

/-- The build cache: a JS object keyed by model id, modelled as an
association list with unique keys maintained by `assocSet`. -/
structure BuildCache where
  models : List (String × CacheEntry)
  lastBuild : Option String
deriving DecidableEq, Repr

/-- Assignment to a JS object property: replace the binding in place, or
append a new one. -/
def assocSet : List (String × CacheEntry) → String → CacheEntry →
    List (String × CacheEntry)
  | [], k, v => [(k, v)]
  | (k', v') :: rest, k, v =>
    if k' = k then (k, v) :: rest else (k', v') :: assocSet rest k v

/-- `cache.models[id] = entry`. -/
def setCacheEntry (c : BuildCache) (id : String) (e : CacheEntry) : BuildCache :=
  { c with models := assocSet c.models id e }

/-- `buildCache.models[id].imagePath = p`, applied only where the entry
exists (property update on a keyed object). -/
def cacheSetImagePath (c : BuildCache) (id p : String) : BuildCache :=
  { c with models := c.models.map fun kv =>
      if kv.1 = id then (kv.1, { kv.2 with imagePath := some p }) else kv }

/-- JSON text of one string, with the escapes `JSON.stringify` applies to
the characters these fields can carry. -/
def jsonStr (s : String) : String :=
  "\"" ++ (⟨s.toList.foldr (fun c acc =>
    if c = '\"' ∨ c = '\\' then '\\' :: c :: acc else c :: acc) []⟩ : String) ++ "\""

/-- JSON text of a string array. -/
def jsonStrArr (xs : List String) : String :=
  "[" ++ String.intercalate "," (xs.map jsonStr) ++ "]"

/-- JSON text of an attribute array. -/
def jsonAttrArr (xs : List AttrKV) : String :=
  "[" ++ String.intercalate "," (xs.map fun a =>
    "\x7b\"key\":" ++ jsonStr a.key ++ ",\"value\":" ++ jsonStr a.value ++ "\x7d") ++ "]"

/-- The `JSON.stringify` source of `calculateModelHash`: the mergeable
fields only; `undefined` optional fields are omitted, as `JSON.stringify`
drops them. -/
def mergeableJson (m : ModelEntry) : String :=
  "\x7b\"name\":" ++ jsonStr m.name ++
    ",\"notes\":" ++ jsonStr m.notes ++
    ",\"tags\":" ++ jsonStrArr m.tags ++
    ",\"collections\":" ++ jsonStrArr m.collections ++
    ",\"attributes\":" ++ jsonAttrArr m.attributes ++
    ",\"sourcePath\":" ++ jsonStr m.sourcePath ++
    (match m.release with
     | some r => ",\"release\":" ++ jsonStr r
     | none => "") ++
    (match m.subscription with
     | some s => ",\"subscription\":" ++ jsonStr s
     | none => "") ++ "\x7d"

/-- `calculateModelHash` from build-nextjs-app.js. -/
def calculateModelHash (md5hex : String → String) (m : ModelEntry) : String :=
  md5hex (mergeableJson m)

/-- The fixed shared placeholder image path. -/
def placeholderPath : String := "/images/placeholder-model.png"

/-- The changed test of `categorizeModels`: no cache entry, a differing
hash, a truthy image that is not publish-path-shaped, or the placeholder. -/
def isChangedModel (md5hex : String → String) (cache : BuildCache)
    (m : ModelEntry) : Bool :=
  let modelHash := calculateModelHash md5hex m
  match cache.models.lookup m.id with
  | none => true
  | some ce =>
    ce.hash != modelHash ||
      (match m.image with
       | some img =>
         img ≠ "" && !jsStartsWith img "/images/" && !jsStartsWith img "http"
       | none => false) ||
      m.image == some placeholderPath

/-- `categorizeModels` from build-nextjs-app.js: split the models into
new/modified and unchanged in order, refreshing the cache record of every
changed model (the fresh record carries no `imagePath`). -/
def categorizeModels (md5hex : String → String) (now : String) :
    List ModelEntry → BuildCache → List ModelEntry × List ModelEntry × BuildCache
  | [], cache => ([], [], cache)
  | m :: rest, cache =>
    if isChangedModel md5hex cache m then
      let cache' := setCacheEntry cache m.id
        ⟨calculateModelHash md5hex m, now, none⟩
      let (nw, un, cf) := categorizeModels md5hex now rest cache'
      (m :: nw, un, cf)
    else
      let (nw, un, cf) := categorizeModels md5hex now rest cache
      (nw, m :: un, cf)

/-- A performed image copy: the model it served, the source path, and the
target file name under the publish directory. -/
structure CopyOp where
  modelId : String
  src : String
  dst : String
deriving DecidableEq, Repr

/-- Update the element at one index, as the script's
`data.models[modelIndex].image = ...` assignment. -/
def updateAt : List α → Nat → (α → α) → List α
  | [], _, _ => []
  | x :: xs, 0, f => f x :: xs
  | x :: xs, n + 1, f => x :: updateAt xs n f

/-- One iteration of the loop in `processModelImages`.  The branch shape
follows the source: a truthy, non-URL, non-publish image is copied (from
the recorded path when it exists, else from an alternative found next to
the source config, else replaced by the placeholder); a falsy image
becomes the placeholder; a URL or publish-path image is left alone. -/
def materializeStep (fs : FileSys) (m : ModelEntry) (data : List ModelEntry)
    (cache : BuildCache) (copies : List CopyOp) :
    List ModelEntry × BuildCache × List CopyOp :=
  match data.findIdx? (fun e => e.id == m.id) with
  | none => (data, cache, copies)
  | some idx =>
    match m.image with
    | none =>
      (updateAt data idx (fun e => { e with image := some placeholderPath }),
        cache, copies)
    | some img =>
      if img = "" then
        (updateAt data idx (fun e => { e with image := some placeholderPath }),
          cache, copies)
      else if !jsStartsWith img "http" && !jsStartsWith img "/images/" then
        if fs.existsSync img then
          let filename := "model-" ++ m.id ++ "-" ++ basename img
          (updateAt data idx (fun e => { e with image := some ("/images/" ++ filename) }),
            cacheSetImagePath cache m.id ("/images/" ++ filename),
            copies ++ [⟨m.id, img, filename⟩])
        else if m.sourcePath ≠ "" then
          match findAlternativeImage fs (dirname m.sourcePath) m.name with
          | some alt =>
            let filename := "model-" ++ m.id ++ "-" ++ basename alt
            (updateAt data idx
                (fun e => { e with image := some ("/images/" ++ filename) }),
              cacheSetImagePath cache m.id ("/images/" ++ filename),
              copies ++ [⟨m.id, alt, filename⟩])
          | none =>
            (updateAt data idx (fun e => { e with image := some placeholderPath }),
              cache, copies)
        else
          (updateAt data idx (fun e => { e with image := some placeholderPath }),
            cache, copies)
      else (data, cache, copies)

/-- `processModelImages` from build-nextjs-app.js: iterate the changed
models, threading the catalog, the cache, and the list of copies made. -/
def processModelImages (fs : FileSys) :
    List ModelEntry → List ModelEntry → BuildCache → List CopyOp →
      List ModelEntry × BuildCache × List CopyOp
  | [], data, cache, copies => (data, cache, copies)
  | m :: rest, data, cache, copies =>
    let (data', cache', copies') := materializeStep fs m data cache copies
    processModelImages fs rest data' cache' copies'

/-- One full pipeline run: extraction (`extract-model-data.js`) followed by
categorization and image materialization (`build-nextjs-app.js`),
returning the final catalog, the saved build cache, and the image copies
performed. -/
def fullRun (md5hex : String → String) (root : String) (fs : FileSys)
    (cfgs : List (String × ConfigDoc)) (prior : Option Catalog) (cache : BuildCache)
    (nowExtract nowBuild : String) (dirsScanned filesFound : Nat)
    (scanDuration : String) : Catalog × BuildCache × List CopyOp :=
  let cat := extractionRun md5hex root nowExtract fs prior cfgs dirsScanned
    filesFound scanDuration
  let (nw, _un, c1) := categorizeModels md5hex nowBuild cat.models cache
  let (models2, c2, copies) := processModelImages fs nw cat.models c1 []
  ({ cat with models := models2 },
    { c2 with lastBuild := some nowBuild }, copies)

/-! Spec-side definitions: these follow the specification's wording and are
compared against the source-translated functions above. -/

/-- The spec's ancestor-or-equal relation between a governed directory and
a model directory: equality, or extension past a path separator (the
separator-aware reading that keeps `/foo` from matching `/foo-bar`). -/
def IsPathAncestorOrEqual (releaseDir modelDir : String) : Prop :=
  releaseDir = modelDir ∨ ∃ rest : String, modelDir = releaseDir ++ "/" ++ rest

/-- A sample release-level config document. -/
def sampleReleaseDoc : ConfigDoc :=
  { scancfg := some ⟨some [⟨"release", "R1"⟩], some ["t1"]⟩
    modelmeta := some ⟨none, none, none, none, none, none⟩ }

/-- A release-shaped document whose `modelmeta` section is missing. -/
def releaseDocNoMeta : ConfigDoc :=
  { scancfg := some ⟨some [⟨"release", "R1"⟩], none⟩, modelmeta := none }

/-- A release-shaped document that also carries a non-null model name. -/
def releaseDocWithName : ConfigDoc :=
  { scancfg := some ⟨some [⟨"subscription", "S1"⟩], none⟩
    modelmeta := some ⟨some "AlsoNamed", none, none, none, none, none⟩ }

/-- A sample model config document. -/
def sampleModelDoc : ConfigDoc :=
  { scancfg := none
    modelmeta := some ⟨some "Goblin", none, some ["own"], none,
      some [⟨"release", "mine"⟩], some "cover.png"⟩ }

/-- First-of-two-options combinator used to state the resolver's priority
order. -/
def firstSome (a b : Option String) : Option String :=
  match a with
  | some x => some x
  | none => b

/-- The directory listing the resolver works from. -/
def listingOf (fs : FileSys) (dir : String) : List String :=
  if fs.existsSync dir then fs.readdir dir else []

/-- Spec level 1: a `.png` whose name, case-insensitively, starts with
`fn` or contains `preview`. -/
def resolveLevel1 (fs : FileSys) (dir : String) : Option String :=
  ((listingOf fs dir).find? fun f =>
    extLower f == ".png" &&
      (jsStartsWith (lower f) "fn" || strContains (lower f) "preview")).map
    (pathJoin dir)

/-- Spec level 2: any `.png` in the model directory. -/
def resolveLevel2 (fs : FileSys) (dir : String) : Option String :=
  ((listingOf fs dir).find? fun f => extLower f == ".png").map (pathJoin dir)

/-- Spec level 3: the configured cover verbatim, then with each of the
fixed extensions appended when the cover name has no extension. -/
def resolveLevel3 (fs : FileSys) (dir : String) (cover : Option String) :
    Option String :=
  match cover with
  | some c =>
    if c ≠ "" then
      if fs.existsSync (pathJoin dir c) then some (pathJoin dir c)
      else if extOfName c == "" then
        (imageExtensions.find? fun ext => fs.existsSync (pathJoin dir (c ++ ext))).map
          fun ext => pathJoin dir (c ++ ext)
      else none
    else none
  | none => none

/-- Spec level 4: any file with an image extension. -/
def resolveLevel4 (fs : FileSys) (dir : String) : Option String :=
  ((listingOf fs dir).find? fun f => imageExtensions.contains (extLower f)).map
    (pathJoin dir)

/-- Spec level 5: any image-extension file in a child directory named
`images`, `thumbnails`, `preview` or `previews`. -/
def resolveLevel5 (fs : FileSys) (dir : String) : Option String :=
  imageSubdirs.findSome? fun d =>
    let dp := pathJoin dir d
    if fs.existsSync dp && fs.isDir dp then
      (fs.readdir dp |>.find? fun f => imageExtensions.contains (extLower f)).map
        (pathJoin dp)
    else none

/-- The claim's resolver: the five levels in priority order, first match
wins. -/
def resolveSpec (fs : FileSys) (dir : String) (cover : Option String) : Option String :=
  firstSome (resolveLevel1 fs dir)
    (firstSome (resolveLevel2 fs dir)
      (firstSome (resolveLevel3 fs dir cover)
        (firstSome (resolveLevel4 fs dir) (resolveLevel5 fs dir))))

/-- The fields of a catalog record not touched by the release merge. -/
def SameCore (m m' : ModelEntry) : Prop :=
  m'.id = m.id ∧ m'.name = m.name ∧ m'.notes = m.notes ∧
    m'.collections = m.collections ∧ m'.sourcePath = m.sourcePath ∧
    m'.relativeSourcePath = m.relativeSourcePath ∧ m'.dateAdded = m.dateAdded ∧
    m'.directoryCollection = m.directoryCollection ∧ m'.image = m.image

/-- A catalog record with its volatile timestamp blanked, used to compare
successive runs. -/
def stripDate (m : ModelEntry) : ModelEntry := { m with dateAdded := "" }

/-- The first record with a given id, as `findIndex`-based updates locate. -/
def getById (l : List ModelEntry) (id : String) : Option ModelEntry :=
  l.find? fun e => e.id == id

/-- Replace the image of every record with the given id. -/
def updateById (l : List ModelEntry) (id : String) (img : Option String) :
    List ModelEntry :=
  l.map fun e => if e.id == id then { e with image := img } else e

/-- The image value a processed model ends with, by the branch structure
of `processModelImages`. -/
def matImage (fs : FileSys) (m : ModelEntry) : Option String :=
  match m.image with
  | none => some placeholderPath
  | some img =>
    if img = "" then some placeholderPath
    else if !jsStartsWith img "http" && !jsStartsWith img "/images/" then
      if fs.existsSync img then
        some ("/images/" ++ ("model-" ++ m.id ++ "-" ++ basename img))
      else if m.sourcePath ≠ "" then
        match findAlternativeImage fs (dirname m.sourcePath) m.name with
        | some alt => some ("/images/" ++ ("model-" ++ m.id ++ "-" ++ basename alt))
        | none => some placeholderPath
      else some placeholderPath
    else m.image

/-- The copy a processed model causes, if any. -/
def copyOf (fs : FileSys) (m : ModelEntry) : Option CopyOp :=
  match m.image with
  | none => none
  | some img =>
    if img = "" then none
    else if !jsStartsWith img "http" && !jsStartsWith img "/images/" then
      if fs.existsSync img then some ⟨m.id, img, "model-" ++ m.id ++ "-" ++ basename img⟩
      else if m.sourcePath ≠ "" then
        match findAlternativeImage fs (dirname m.sourcePath) m.name with
        | some alt => some ⟨m.id, alt, "model-" ++ m.id ++ "-" ++ basename alt⟩
        | none => none
      else none
    else none

/-- The cache effect of one processed model: the published image path is
recorded exactly when a copy was made. -/
def matCacheUpd (fs : FileSys) (cache : BuildCache) (m : ModelEntry) : BuildCache :=
  match copyOf fs m with
  | some op => cacheSetImagePath cache m.id ("/images/" ++ op.dst)
  | none => cache

/-- A directory tree whose model directory holds a single `thumbnail.jpg`. -/
def thumbFs : FileSys :=
  { readdir := fun d => if d = "/m" then ["thumbnail.jpg"] else []
    existsSync := fun p => p = "/m"
    isDir := fun _ => false }

/-- A filesystem with nothing in it. -/
def emptyFs : FileSys :=
  { readdir := fun _ => [], existsSync := fun _ => false, isDir := fun _ => false }

/-- A stand-in for node's MD5 hex digest used in concrete runs. -/
def mdConstHash : String → String := fun _ => "0123456789abcdef"

/-- A concrete model config naming a Goblin model. -/
def goblinDoc : ConfigDoc :=
  { scancfg := none
    modelmeta := some ⟨some "Goblin", none, none, none, none, none⟩ }

/-- The discovered config list of a one-model tree. -/
def goblinCfgs : List (String × ConfigDoc) :=
  [("/r/C1/Goblin/config.orynt3d", goblinDoc)]

/-- The prior-run Goblin entry, with a recorded `dateAdded` and an already
published image. -/
def goblinPriorEntry : ModelEntry :=
  { id := "goblin-01234567"
    name := "Goblin"
    notes := ""
    tags := []
    collections := []
    attributes := []
    sourcePath := "/r/C1/Goblin/config.orynt3d"
    relativeSourcePath := "C1/Goblin/config.orynt3d"
    dateAdded := "D1"
    directoryCollection := some "C1"
    image := some "/images/x.png"
    release := none
    subscription := none }

/-- A prior catalog holding exactly the prior Goblin entry. -/
def goblinPriorCat : Catalog :=
  { models := [goblinPriorEntry]
    lastUpdated := "L"
    totalCount := 1
    scanStats := ⟨0, 0, 0, 0, "0"⟩ }

/-- The claim's changed test, spelled out: no cache entry for the id, a
cached hash differing from the MD5 of the mergeable fields, an image value
that is neither publish-path-shaped nor an absolute URL, or the
placeholder image. -/
def SpecChanged (md5hex : String → String) (cache : BuildCache) (m : ModelEntry) :
    Prop :=
  cache.models.lookup m.id = none ∨
    (∃ ce, cache.models.lookup m.id = some ce ∧
      ce.hash ≠ calculateModelHash md5hex m) ∨
    (∃ img, m.image = some img ∧ img ≠ "" ∧
      jsStartsWith img "/images/" = false ∧ jsStartsWith img "http" = false) ∨
    m.image = some placeholderPath

/-- A build cache already holding the Goblin model's mergeable hash. -/
def goblinCache : BuildCache :=
  { models := [("goblin-01234567", ⟨"0123456789abcdef", "t0", none⟩)]
    lastBuild := none }

/-! Theorems. -/

attribute [ext] ModelEntry

/-- JS `startsWith` is exactly "some suffix completes the string". -/
theorem jsStartsWith_iff (s p : String) :
    jsStartsWith s p = true ↔ ∃ t : String, s = p ++ t := by
  simp only [jsStartsWith, List.isPrefixOf_iff_prefix]
  constructor
  · rintro ⟨t, ht⟩
    exact ⟨⟨t⟩, String.ext ht.symm⟩
  · rintro ⟨t, rfl⟩
    exact ⟨t.data, rfl⟩

/-- The containment test of the release resolver agrees with the spec's
separator-aware ancestor-or-equal relation. -/
theorem dirApplies_iff (r m : String) :
    dirApplies r m = true ↔ IsPathAncestorOrEqual r m := by
  simp only [dirApplies, Bool.or_eq_true, beq_iff_eq, jsStartsWith_iff,
    IsPathAncestorOrEqual]
  constructor
  · rintro (rfl | ⟨t, rfl⟩)
    · exact Or.inl rfl
    · exact Or.inr ⟨t, rfl⟩
  · rintro (rfl | ⟨t, rfl⟩)
    · exact Or.inl rfl
    · exact Or.inr ⟨t, rfl⟩

/-- C3: a release record is in a model's applicable set exactly when its
governed directory equals the model's directory or is a path-ancestor of
it under separator-aware comparison; in particular a release governing
`/foo` does not reach `/foo-bar`, and one governing `/A` reaches a model
directory `/A/B/model` but not `/C/model`. -/
theorem applicable_iff_path_ancestor :
    (∀ (rels : List (String × ConfigDoc)) (p : String) (rc : ConfigDoc),
        rc ∈ findApplicableReleaseConfigs rels p ↔
          ∃ rd, (rd, rc) ∈ rels ∧ IsPathAncestorOrEqual rd (dirname p)) ∧
      dirApplies "/foo" "/foo-bar" = false ∧
      dirApplies "/A" "/A/B/model" = true ∧
      dirApplies "/A" "/C/model" = false := by
  refine ⟨?_, by decide, by decide, by decide⟩
  intro rels p rc
  simp only [findApplicableReleaseConfigs, List.mem_map, List.mem_filter]
  constructor
  · rintro ⟨⟨rd, rc'⟩, ⟨hmem, happ⟩, rfl⟩
    exact ⟨rd, hmem, (dirApplies_iff _ _).mp happ⟩
  · rintro ⟨rd, hmem, happ⟩
    exact ⟨(rd, rc), ⟨hmem, (dirApplies_iff _ _).mpr happ⟩, rfl⟩

/-- The attribute list after one release attribute: appended exactly when
its key is absent. -/
theorem applyAttr_attributes_eq (m : ModelEntry) (a : AttrKV) :
    (applyAttr m a).attributes =
      if m.attributes.any (fun ex => ex.key == a.key) then m.attributes
      else m.attributes ++ [a] := by
  simp [applyAttr, apply_ite ModelEntry.attributes]

/-- Applying one release attribute never touches the tag list. -/
theorem applyAttr_preserves_tags (m : ModelEntry) (a : AttrKV) :
    (applyAttr m a).tags = m.tags := by
  simp [applyAttr, apply_ite ModelEntry.tags]

/-- Applying one release attribute appends at most one fresh-keyed entry. -/
theorem applyAttr_attrs (m : ModelEntry) (a : AttrKV) :
    ∃ ea, (applyAttr m a).attributes = m.attributes ++ ea ∧
      ∀ e ∈ ea, ∀ x ∈ m.attributes, e.key ≠ x.key := by
  by_cases hc : m.attributes.any (fun ex => ex.key == a.key) = true
  · exact ⟨[], by simp [applyAttr_attributes_eq, hc], by simp⟩
  · refine ⟨[a], by simp [applyAttr_attributes_eq, hc], ?_⟩
    intro e he x hx heq
    simp only [List.mem_singleton] at he
    subst he
    exact hc (List.any_eq_true.mpr ⟨x, hx, by simp [heq]⟩)

/-- Applying one release tag never touches the attribute list. -/
theorem applyTag_preserves_attrs (m : ModelEntry) (t : String) :
    (applyTag m t).attributes = m.attributes := by
  simp [applyTag, apply_ite ModelEntry.attributes]

/-- Applying one release tag appends at most one absent tag. -/
theorem applyTag_tags (m : ModelEntry) (t : String) :
    ∃ et, (applyTag m t).tags = m.tags ++ et ∧ ∀ x ∈ et, x ∉ m.tags := by
  simp only [applyTag]
  split
  · exact ⟨[], by simp, by simp⟩
  · next hc => exact ⟨[t], by simp, by simpa using hc⟩

/-- The release field after one release attribute. -/
theorem applyAttr_release_eq (m : ModelEntry) (a : AttrKV) :
    (applyAttr m a).release =
      if a.key = "release" then some a.value else m.release := by
  simp only [applyAttr]
  repeat' split
  all_goals simp_all

/-- The subscription field after one release attribute. -/
theorem applyAttr_subscription_eq (m : ModelEntry) (a : AttrKV) :
    (applyAttr m a).subscription =
      if a.key = "subscription" then some a.value else m.subscription := by
  simp only [applyAttr]
  repeat' split
  all_goals simp_all

/-- One release attribute only touches attributes, release, subscription. -/
theorem applyAttr_core (m : ModelEntry) (a : AttrKV) : SameCore m (applyAttr m a) := by
  refine ⟨?_, ?_, ?_, ?_, ?_, ?_, ?_, ?_, ?_⟩ <;>
    simp [applyAttr, apply_ite ModelEntry.id, apply_ite ModelEntry.name,
      apply_ite ModelEntry.notes, apply_ite ModelEntry.collections,
      apply_ite ModelEntry.sourcePath, apply_ite ModelEntry.relativeSourcePath,
      apply_ite ModelEntry.dateAdded, apply_ite ModelEntry.directoryCollection,
      apply_ite ModelEntry.image]

/-- The tag list after one release tag. -/
theorem applyTag_tags_eq (m : ModelEntry) (t : String) :
    (applyTag m t).tags = if m.tags.contains t then m.tags else m.tags ++ [t] := by
  simp [applyTag, apply_ite ModelEntry.tags]

/-- One release tag only touches the tag list. -/
theorem applyTag_core (m : ModelEntry) (t : String) :
    SameCore m (applyTag m t) ∧ (applyTag m t).release = m.release ∧
      (applyTag m t).subscription = m.subscription := by
  refine ⟨⟨?_, ?_, ?_, ?_, ?_, ?_, ?_, ?_, ?_⟩, ?_, ?_⟩ <;>
    simp [applyTag, apply_ite ModelEntry.id, apply_ite ModelEntry.name,
      apply_ite ModelEntry.notes, apply_ite ModelEntry.collections,
      apply_ite ModelEntry.sourcePath, apply_ite ModelEntry.relativeSourcePath,
      apply_ite ModelEntry.dateAdded, apply_ite ModelEntry.directoryCollection,
      apply_ite ModelEntry.image, apply_ite ModelEntry.release,
      apply_ite ModelEntry.subscription]

/-- `SameCore` composes. -/
theorem SameCore.trans {m₁ m₂ m₃ : ModelEntry} (h1 : SameCore m₁ m₂)
    (h2 : SameCore m₂ m₃) : SameCore m₁ m₃ := by
  obtain ⟨a1, a2, a3, a4, a5, a6, a7, a8, a9⟩ := h1
  obtain ⟨b1, b2, b3, b4, b5, b6, b7, b8, b9⟩ := h2
  exact ⟨b1.trans a1, b2.trans a2, b3.trans a3, b4.trans a4, b5.trans a5,
    b6.trans a6, b7.trans a7, b8.trans a8, b9.trans a9⟩

/-- The whole release merge only touches tags, attributes, release and
subscription. -/
theorem applyReleaseConfigs_core (rels : List ConfigDoc) (m : ModelEntry) :
    SameCore m (applyReleaseConfigs m rels) := by
  have hAttrFold : ∀ (l : List AttrKV) (m : ModelEntry),
      SameCore m (l.foldl applyAttr m) := by
    intro l
    induction l with
    | nil => exact fun m => ⟨rfl, rfl, rfl, rfl, rfl, rfl, rfl, rfl, rfl⟩
    | cons a l ih =>
      exact fun m => (applyAttr_core m a).trans (ih (applyAttr m a))
  have hTagFold : ∀ (l : List String) (m : ModelEntry),
      SameCore m (l.foldl applyTag m) := by
    intro l
    induction l with
    | nil => exact fun m => ⟨rfl, rfl, rfl, rfl, rfl, rfl, rfl, rfl, rfl⟩
    | cons t l ih =>
      exact fun m => (applyTag_core m t).1.trans (ih (applyTag m t))
  have hRel : ∀ (rc : ConfigDoc) (m : ModelEntry), SameCore m (applyRelease m rc) := by
    intro rc m
    obtain ⟨osc, omm⟩ := rc
    rcases osc with _ | ⟨ai, ti⟩
    · exact ⟨rfl, rfl, rfl, rfl, rfl, rfl, rfl, rfl, rfl⟩
    · rcases ai with _ | incl <;> rcases ti with _ | tl
      · exact ⟨rfl, rfl, rfl, rfl, rfl, rfl, rfl, rfl, rfl⟩
      · exact hTagFold tl m
      · exact hAttrFold incl m
      · exact (hAttrFold incl m).trans (hTagFold tl (incl.foldl applyAttr m))
  induction rels generalizing m with
  | nil => exact ⟨rfl, rfl, rfl, rfl, rfl, rfl, rfl, rfl, rfl⟩
  | cons rc rels ih => exact (hRel rc m).trans (ih (applyRelease m rc))

/-- Changing only `dateAdded` and `image` before one release attribute is
the same as changing them after. -/
theorem applyAttr_swap (m : ModelEntry) (d : String) (i : Option String) (a : AttrKV) :
    applyAttr { m with dateAdded := d, image := i } a =
      { applyAttr m a with dateAdded := d, image := i } := by
  have hc := applyAttr_core m a
  have hc' := applyAttr_core { m with dateAdded := d, image := i } a
  ext1
  · exact hc'.1.trans (hc.1.symm)
  · exact hc'.2.1.trans (hc.2.1.symm)
  · exact hc'.2.2.1.trans (hc.2.2.1.symm)
  · rw [applyAttr_preserves_tags, applyAttr_preserves_tags]
  · exact hc'.2.2.2.1.trans (hc.2.2.2.1.symm)
  · rw [applyAttr_attributes_eq, applyAttr_attributes_eq]
  · exact hc'.2.2.2.2.1.trans (hc.2.2.2.2.1.symm)
  · exact hc'.2.2.2.2.2.1.trans (hc.2.2.2.2.2.1.symm)
  · exact hc'.2.2.2.2.2.2.1
  · exact hc'.2.2.2.2.2.2.2.1.trans (hc.2.2.2.2.2.2.2.1.symm)
  · exact hc'.2.2.2.2.2.2.2.2
  · rw [applyAttr_release_eq, applyAttr_release_eq]
  · rw [applyAttr_subscription_eq, applyAttr_subscription_eq]

/-- Changing only `dateAdded` and `image` before one release tag is the
same as changing them after. -/
theorem applyTag_swap (m : ModelEntry) (d : String) (i : Option String) (t : String) :
    applyTag { m with dateAdded := d, image := i } t =
      { applyTag m t with dateAdded := d, image := i } := by
  obtain ⟨hc, hr, hs⟩ := applyTag_core m t
  obtain ⟨hc', hr', hs'⟩ := applyTag_core { m with dateAdded := d, image := i } t
  ext1
  · exact hc'.1.trans (hc.1.symm)
  · exact hc'.2.1.trans (hc.2.1.symm)
  · exact hc'.2.2.1.trans (hc.2.2.1.symm)
  · rw [applyTag_tags_eq, applyTag_tags_eq]
  · exact hc'.2.2.2.1.trans (hc.2.2.2.1.symm)
  · rw [applyTag_preserves_attrs, applyTag_preserves_attrs]
  · exact hc'.2.2.2.2.1.trans (hc.2.2.2.2.1.symm)
  · exact hc'.2.2.2.2.2.1.trans (hc.2.2.2.2.2.1.symm)
  · exact hc'.2.2.2.2.2.2.1
  · exact hc'.2.2.2.2.2.2.2.1.trans (hc.2.2.2.2.2.2.2.1.symm)
  · exact hc'.2.2.2.2.2.2.2.2
  · exact hr'.trans hr.symm
  · exact hs'.trans hs.symm

/-- Changing only `dateAdded` and `image` commutes with the whole release
merge. -/
theorem applyReleaseConfigs_swap (rels : List ConfigDoc) (m : ModelEntry)
    (d : String) (i : Option String) :
    applyReleaseConfigs { m with dateAdded := d, image := i } rels =
      { applyReleaseConfigs m rels with dateAdded := d, image := i } := by
  have hAttrFold : ∀ (l : List AttrKV) (m : ModelEntry),
      l.foldl applyAttr { m with dateAdded := d, image := i } =
        { l.foldl applyAttr m with dateAdded := d, image := i } := by
    intro l
    induction l with
    | nil => exact fun m => rfl
    | cons a l ih =>
      intro m
      simp only [List.foldl_cons, applyAttr_swap, ih]
  have hTagFold : ∀ (l : List String) (m : ModelEntry),
      l.foldl applyTag { m with dateAdded := d, image := i } =
        { l.foldl applyTag m with dateAdded := d, image := i } := by
    intro l
    induction l with
    | nil => exact fun m => rfl
    | cons t l ih =>
      intro m
      simp only [List.foldl_cons, applyTag_swap, ih]
  have hRel : ∀ (rc : ConfigDoc) (m : ModelEntry),
      applyRelease { m with dateAdded := d, image := i } rc =
        { applyRelease m rc with dateAdded := d, image := i } := by
    intro rc m
    obtain ⟨osc, omm⟩ := rc
    rcases osc with _ | ⟨ai, ti⟩
    · rfl
    · rcases ai with _ | incl <;> rcases ti with _ | tl
      · rfl
      · exact hTagFold tl m
      · exact hAttrFold incl m
      · show tl.foldl applyTag (incl.foldl applyAttr _) = _
        rw [hAttrFold incl m, hTagFold tl (incl.foldl applyAttr m)]
        rfl
  induction rels generalizing m with
  | nil => rfl
  | cons rc rels ih =>
    show applyReleaseConfigs (applyRelease _ rc) rels = _
    rw [hRel rc m, ih (applyRelease m rc)]
    rfl

/-- `processModelConfig` splits into a part independent of the prior data
file and of the clock, plus the stamped `dateAdded` and resolved image. -/
theorem processModelConfig_split (md5hex : String → String) (root now now' : String)
    (fs : FileSys) (existing existing' : List (String × String)) (cfg : ConfigDoc)
    (p : String) (rels : List ConfigDoc) :
    processModelConfig md5hex root now fs existing cfg p rels =
      { processModelConfig md5hex root now' fs existing' cfg p rels with
          dateAdded := now, image := extractImage md5hex fs existing root cfg p } := by
  have hbase : baseModelEntry md5hex root now fs existing cfg p =
      { baseModelEntry md5hex root now' fs existing' cfg p with
          dateAdded := now, image := extractImage md5hex fs existing root cfg p } := rfl
  unfold processModelConfig
  rw [hbase]
  exact applyReleaseConfigs_swap rels (baseModelEntry md5hex root now' fs existing' cfg p)
    now (extractImage md5hex fs existing root cfg p)

/-- The id a processed model carries. -/
theorem processModelConfig_id (md5hex : String → String) (root now : String)
    (fs : FileSys) (existing : List (String × String)) (cfg : ConfigDoc)
    (p : String) (rels : List ConfigDoc) :
    (processModelConfig md5hex root now fs existing cfg p rels).id =
      modelIdOf md5hex root cfg p :=
  (applyReleaseConfigs_core rels _).1

/-- The image a processed model carries. -/
theorem processModelConfig_image (md5hex : String → String) (root now : String)
    (fs : FileSys) (existing : List (String × String)) (cfg : ConfigDoc)
    (p : String) (rels : List ConfigDoc) :
    (processModelConfig md5hex root now fs existing cfg p rels).image =
      extractImage md5hex fs existing root cfg p :=
  (applyReleaseConfigs_core rels _).2.2.2.2.2.2.2.2

/-- The timestamp a processed model carries. -/
theorem processModelConfig_dateAdded (md5hex : String → String) (root now : String)
    (fs : FileSys) (existing : List (String × String)) (cfg : ConfigDoc)
    (p : String) (rels : List ConfigDoc) :
    (processModelConfig md5hex root now fs existing cfg p rels).dateAdded = now :=
  (applyReleaseConfigs_core rels _).2.2.2.2.2.2.1

/-- Merging one release config: the model's own attribute entries stay in
place, only fresh-keyed entries are appended, tags gain only absentees. -/
theorem applyRelease_shape (rc : ConfigDoc) (m : ModelEntry) :
    ∃ ea et, (applyRelease m rc).attributes = m.attributes ++ ea ∧
      (∀ e ∈ ea, ∀ x ∈ m.attributes, e.key ≠ x.key) ∧
      (applyRelease m rc).tags = m.tags ++ et ∧
      (∀ x ∈ et, x ∉ m.tags) := by
  have hattrFold : ∀ (l : List AttrKV) (m : ModelEntry),
      ∃ ea, (l.foldl applyAttr m).attributes = m.attributes ++ ea ∧
        (∀ e ∈ ea, ∀ x ∈ m.attributes, e.key ≠ x.key) ∧
        (l.foldl applyAttr m).tags = m.tags := by
    intro l
    induction l with
    | nil => exact fun m => ⟨[], by simp, by simp, rfl⟩
    | cons a l ih =>
      intro m
      obtain ⟨ea1, h1, hf1⟩ := applyAttr_attrs m a
      obtain ⟨ea2, h2, hf2, ht2⟩ := ih (applyAttr m a)
      refine ⟨ea1 ++ ea2, ?_, ?_, ?_⟩
      · simp [List.foldl_cons, h2, h1]
      · intro e he x hx
        rcases List.mem_append.mp he with h | h
        · exact hf1 e h x hx
        · exact hf2 e h x (by simp [h1, hx])
      · simp [List.foldl_cons, ht2, applyAttr_preserves_tags]
  have htagFold : ∀ (l : List String) (m : ModelEntry),
      ∃ et, (l.foldl applyTag m).tags = m.tags ++ et ∧
        (∀ x ∈ et, x ∉ m.tags) ∧
        (l.foldl applyTag m).attributes = m.attributes := by
    intro l
    induction l with
    | nil => exact fun m => ⟨[], by simp, by simp, rfl⟩
    | cons t l ih =>
      intro m
      obtain ⟨et1, h1, hf1⟩ := applyTag_tags m t
      obtain ⟨et2, h2, hf2, ha2⟩ := ih (applyTag m t)
      refine ⟨et1 ++ et2, ?_, ?_, ?_⟩
      · simp [List.foldl_cons, h2, h1]
      · intro x hx
        rcases List.mem_append.mp hx with h | h
        · exact hf1 x h
        · intro hmem
          exact hf2 x h (by simp [h1, hmem])
      · simp [List.foldl_cons, ha2, applyTag_preserves_attrs]
  obtain ⟨osc, omm⟩ := rc
  rcases osc with _ | ⟨ai, ti⟩
  · exact ⟨[], [], by simp [applyRelease], by simp, by simp [applyRelease], by simp⟩
  · rcases ai with _ | incl <;> rcases ti with _ | tl
    · exact ⟨[], [], by simp [applyRelease], by simp, by simp [applyRelease], by simp⟩
    · obtain ⟨et, h1, h2, h3⟩ := htagFold tl m
      exact ⟨[], et, by simpa [applyRelease] using h3, by simp,
        by simpa [applyRelease] using h1, h2⟩
    · obtain ⟨ea, h1, h2, h3⟩ := hattrFold incl m
      exact ⟨ea, [], by simpa [applyRelease] using h1, h2,
        by simpa [applyRelease] using h3, by simp⟩
    · obtain ⟨ea, h1, h2, h3⟩ := hattrFold incl m
      obtain ⟨et, g1, g2, g3⟩ := htagFold tl (incl.foldl applyAttr m)
      refine ⟨ea, et, ?_, h2, ?_, ?_⟩
      · simp only [applyRelease]
        rw [g3, h1]
      · simp only [applyRelease]
        rw [g1, h3]
      · intro x hx
        simpa [h3] using g2 x hx

/-- C4: merging the applicable release configs into a model obeys
set-union semantics with the model's own values taking precedence: the
model's own attribute entries survive unchanged in place, a release
attribute whose key already occurs (including key `release`) is not
appended and overwrites nothing, and a release tag already present is not
appended. -/
theorem release_merge_set_union (m : ModelEntry) (rels : List ConfigDoc) :
    ∃ extraAttrs extraTags,
      (applyReleaseConfigs m rels).attributes = m.attributes ++ extraAttrs ∧
      (∀ e ∈ extraAttrs, ∀ a ∈ m.attributes, e.key ≠ a.key) ∧
      (applyReleaseConfigs m rels).tags = m.tags ++ extraTags ∧
      (∀ t ∈ extraTags, t ∉ m.tags) := by
  induction rels generalizing m with
  | nil => exact ⟨[], [], by simp [applyReleaseConfigs], by simp,
      by simp [applyReleaseConfigs], by simp⟩
  | cons rc rels ih =>
    obtain ⟨ea1, et1, h1, hf1, g1, gf1⟩ := applyRelease_shape rc m
    obtain ⟨ea2, et2, h2, hf2, g2, gf2⟩ := ih (applyRelease m rc)
    have hfold : applyReleaseConfigs m (rc :: rels) =
        applyReleaseConfigs (applyRelease m rc) rels := rfl
    refine ⟨ea1 ++ ea2, et1 ++ et2, ?_, ?_, ?_, ?_⟩
    · rw [hfold, h2, h1, List.append_assoc]
    · intro e he a ha
      rcases List.mem_append.mp he with h | h
      · exact hf1 e h a ha
      · exact hf2 e h a (by simp [h1, ha])
    · rw [hfold, g2, g1, List.append_assoc]
    · intro t ht
      rcases List.mem_append.mp ht with h | h
      · exact gf1 t h
      · intro hmem
        exact gf2 t h (by simp [g1, hmem])

/-- The source resolver coincides with the five-level priority cascade. -/
theorem findCoverImage_eq_resolveSpec (fs : FileSys) (dir : String)
    (cover : Option String) :
    findCoverImage fs dir cover = resolveSpec fs dir cover := by
  simp only [findCoverImage, resolveSpec, resolveLevel1, resolveLevel2, resolveLevel3,
    resolveLevel4, resolveLevel5, firstSome, listingOf]
  cases h1 : (if fs.existsSync dir then fs.readdir dir else []).find? fun f =>
      extLower f == ".png" &&
        (jsStartsWith (lower f) "fn" || strContains (lower f) "preview") <;>
    simp only [h1, Option.map_none', Option.map_some']
  cases h2 : (if fs.existsSync dir then fs.readdir dir else []).find? fun f =>
      extLower f == ".png" <;>
    simp only [h2, Option.map_none', Option.map_some']
  cases h3 : (match cover with
    | some c =>
      if c ≠ "" then
        if fs.existsSync (pathJoin dir c) then some (pathJoin dir c)
        else if extOfName c == "" then
          (imageExtensions.find? fun ext =>
            fs.existsSync (pathJoin dir (c ++ ext))).map
            fun ext => pathJoin dir (c ++ ext)
        else none
      else none
    | none => none : Option String) <;>
    simp only [h3, Option.map_none', Option.map_some']
  cases h4 : (if fs.existsSync dir then fs.readdir dir else []).find? fun f =>
      imageExtensions.contains (extLower f) <;>
    simp only [h4, Option.map_none', Option.map_some']

/-- C7: the image resolver is the five-level priority search, stopping at
the first match and yielding null when nothing matches; a directory
holding only `thumbnail.jpg`, with no configured cover, resolves through
level 4. -/
theorem image_resolver_priority_order :
    (∀ (fs : FileSys) (dir : String) (cover : Option String),
        findCoverImage fs dir cover = resolveSpec fs dir cover) ∧
      resolveLevel1 thumbFs "/m" = none ∧
      resolveLevel2 thumbFs "/m" = none ∧
      resolveLevel3 thumbFs "/m" none = none ∧
      resolveLevel4 thumbFs "/m" = some "/m/thumbnail.jpg" ∧
      findCoverImage thumbFs "/m" none = some "/m/thumbnail.jpg" ∧
      findCoverImage emptyFs "/m" (some "cover") = none :=
  ⟨findCoverImage_eq_resolveSpec, by decide, by decide, by decide, by decide,
    by decide, by decide⟩

/-- C8: the stable id is a pure function of the resolved name and the
config path's position relative to the scan root — a lowercase slug of the
name, a dash, and a truncated digest of name plus relative path — and is
unaffected by the clock, the prior data file, the filesystem, and the set
of applicable releases. -/
theorem stable_id_deterministic :
    (∀ (md5hex : String → String) (root now : String) (fs : FileSys)
        (existing : List (String × String)) (cfg : ConfigDoc) (p : String)
        (rels : List ConfigDoc),
        (processModelConfig md5hex root now fs existing cfg p rels).id =
          normalizeSlug (resolvedName root cfg p) ++ "-" ++
            (md5hex (resolvedName root cfg p ++ "-" ++ relativeTo root p)).take 8) ∧
    (∀ (md5hex : String → String) (root now₁ now₂ : String) (fs₁ fs₂ : FileSys)
        (E₁ E₂ : List (String × String)) (cfg : ConfigDoc) (p : String)
        (rels₁ rels₂ : List ConfigDoc),
        (processModelConfig md5hex root now₁ fs₁ E₁ cfg p rels₁).id =
          (processModelConfig md5hex root now₂ fs₂ E₂ cfg p rels₂).id) ∧
    (∀ (md5hex : String → String) (root n₁ n₂ p₁ p₂ : String),
        n₁ = n₂ → relativeTo root p₁ = relativeTo root p₂ →
        generateStableId md5hex root n₁ p₁ = generateStableId md5hex root n₂ p₂) := by
  refine ⟨?_, ?_, ?_⟩
  · intro md5hex root now fs existing cfg p rels
    rw [processModelConfig_id]
    rfl
  · intro md5hex root now₁ now₂ fs₁ fs₂ E₁ E₂ cfg p rels₁ rels₂
    rw [processModelConfig_id, processModelConfig_id]
  · intro md5hex root n₁ n₂ p₁ p₂ h1 h2
    unfold generateStableId
    rw [h1, h2]

/-- C8 witness: two distinct config paths with the same relative position
and name receive the same id. -/
theorem stable_id_deterministic_witness :
    generateStableId mdConstHash "/r" "Goblin" "/r" =
      generateStableId mdConstHash "/r" "Goblin" "" :=
  stable_id_deterministic.2.2 mdConstHash "/r" "Goblin" "Goblin" "/r" "" rfl (by decide)

/-- C2 counterexample: a rebuild against a prior catalog whose entry for
the same id carries `dateAdded = "D1"` produces the entry with the fresh
timestamp `"T2"` — `dateAdded` is regenerated, not carried forward —
while the prior published image is carried. -/
theorem dateAdded_not_carried_forward :
    (extractionRun mdConstHash "/r" "T2" emptyFs (some goblinPriorCat) goblinCfgs
          0 0 "0").models.map ModelEntry.id = ["goblin-01234567"] ∧
      goblinPriorCat.models.map ModelEntry.id = ["goblin-01234567"] ∧
      goblinPriorCat.models.map ModelEntry.dateAdded = ["D1"] ∧
      (extractionRun mdConstHash "/r" "T2" emptyFs (some goblinPriorCat) goblinCfgs
          0 0 "0").models.map ModelEntry.dateAdded = ["T2"] ∧
      (extractionRun mdConstHash "/r" "T2" emptyFs (some goblinPriorCat) goblinCfgs
          0 0 "0").models.map ModelEntry.image = [some "/images/x.png"] := by
  refine ⟨by decide, by decide, by decide, by decide, by decide⟩

/-- C2 (amended): when the prior catalog's image map binds the rebuilt id
to a publish-path-shaped or absolute-URL image, that image is carried
forward into the new entry; `dateAdded`, by contrast, is always set to the
current run's timestamp. -/
theorem image_carried_dateAdded_regenerated (md5hex : String → String)
    (root now : String) (fs : FileSys) (prior : Catalog) (cfg : ConfigDoc)
    (p : String) (rels : List ConfigDoc) (img : String)
    (hlook : lookupLast (imageMapOf prior) (modelIdOf md5hex root cfg p) = some img)
    (hshape : jsStartsWith img "/images/" = true ∨ jsStartsWith img "http" = true) :
    (processModelConfig md5hex root now fs (imageMapOf prior) cfg p rels).image =
        some img ∧
      (processModelConfig md5hex root now fs (imageMapOf prior) cfg p rels).dateAdded =
        now := by
  refine ⟨?_, processModelConfig_dateAdded md5hex root now fs _ cfg p rels⟩
  rw [processModelConfig_image]
  unfold extractImage
  rw [hlook]
  rcases hshape with h | h <;> simp [h]

/-- C2 witness: the carried image and regenerated timestamp on the
concrete Goblin rebuild. -/
theorem image_carried_dateAdded_regenerated_witness :
    (processModelConfig mdConstHash "/r" "T2" emptyFs (imageMapOf goblinPriorCat)
          goblinDoc "/r/C1/Goblin/config.orynt3d" []).image = some "/images/x.png" ∧
      (processModelConfig mdConstHash "/r" "T2" emptyFs (imageMapOf goblinPriorCat)
          goblinDoc "/r/C1/Goblin/config.orynt3d" []).dateAdded = "T2" :=
  image_carried_dateAdded_regenerated mdConstHash "/r" "T2" emptyFs goblinPriorCat
    goblinDoc "/r/C1/Goblin/config.orynt3d" [] "/images/x.png" (by decide)
    (Or.inl (by decide))

/-- A string starts with any of its own prefixes. -/
theorem jsStartsWith_append (p t : String) : jsStartsWith (p ++ t) p = true := by
  rw [jsStartsWith_iff]
  exact ⟨t, rfl⟩

/-- A string with a nonempty prefix is nonempty. -/
theorem ne_empty_of_jsStartsWith {s p : String} (hp : p ≠ "")
    (h : jsStartsWith s p = true) : s ≠ "" := by
  obtain ⟨t, rfl⟩ := (jsStartsWith_iff s p).mp h
  intro he
  apply hp
  have : p.data ++ t.data = ([] : List Char) := congrArg String.data he
  exact String.ext (List.append_eq_nil.mp this).1

/-- Object-property assignment: the assigned key reads back the value. -/
theorem assocSet_lookup_self (l : List (String × CacheEntry)) (k : String)
    (v : CacheEntry) : (assocSet l k v).lookup k = some v := by
  induction l with
  | nil => simp [assocSet]
  | cons kv rest ih =>
    obtain ⟨k1, v1⟩ := kv
    by_cases h : k1 = k
    · subst h
      simp [assocSet]
    · have hb : (k == k1) = false := by simpa using Ne.symm h
      simp only [assocSet, if_neg h, List.lookup_cons, hb]
      exact ih

/-- Object-property assignment leaves other keys alone. -/
theorem assocSet_lookup_other (l : List (String × CacheEntry)) (k k' : String)
    (v : CacheEntry) (h : k' ≠ k) : (assocSet l k v).lookup k' = l.lookup k' := by
  have hb : (k' == k) = false := by simpa using h
  induction l with
  | nil => simp [assocSet, List.lookup_cons, hb]
  | cons kv rest ih =>
    obtain ⟨k1, v1⟩ := kv
    by_cases hk : k1 = k
    · subst hk
      simp [assocSet, List.lookup_cons, hb]
    · simp only [assocSet, if_neg hk, List.lookup_cons]
      cases hkk : k' == k1
      · simpa only [hkk] using ih
      · simp only [hkk]

/-- Recording a published image path never changes a cache entry's hash
(nor which ids have entries). -/
theorem cacheSetImagePath_lookup_hash (c : BuildCache) (id p k : String) :
    ((cacheSetImagePath c id p).models.lookup k).map CacheEntry.hash =
      (c.models.lookup k).map CacheEntry.hash := by
  show ((c.models.map _).lookup k).map CacheEntry.hash = _
  induction c.models with
  | nil => rfl
  | cons kv rest ih =>
    obtain ⟨k1, e1⟩ := kv
    simp only [List.map_cons]
    by_cases hk : k1 = id
    · simp only [if_pos hk]
      rw [List.lookup_cons, List.lookup_cons]
      cases hkk : k == k1
      · simpa only [hkk] using ih
      · simp [hkk]
    · simp only [if_neg hk]
      rw [List.lookup_cons, List.lookup_cons]
      cases hkk : k == k1
      · simpa only [hkk] using ih
      · simp [hkk]

/-- The changed test reads the cache only at the model's id. -/
theorem isChangedModel_congr (md5hex : String → String) (c c' : BuildCache)
    (m : ModelEntry) (h : c'.models.lookup m.id = c.models.lookup m.id) :
    isChangedModel md5hex c' m = isChangedModel md5hex c m := by
  unfold isChangedModel
  rw [h]

/-- What a negative changed test implies: a cache hit with matching hash,
no truthy raw image, and no placeholder. -/
theorem isChangedModel_false_facts (md5hex : String → String) (cache : BuildCache)
    (m : ModelEntry) (h : isChangedModel md5hex cache m = false) :
    (∃ ce, cache.models.lookup m.id = some ce ∧
        ce.hash = calculateModelHash md5hex m) ∧
      (∀ img, m.image = some img → img ≠ "" →
        (jsStartsWith img "/images/" || jsStartsWith img "http") = true) ∧
      m.image ≠ some placeholderPath := by
  unfold isChangedModel at h
  cases hl : cache.models.lookup m.id with
  | none =>
    rw [hl] at h
    exact absurd h (by simp)
  | some ce =>
    rw [hl] at h
    simp only [Bool.or_eq_false_iff] at h
    obtain ⟨⟨hh, him⟩, hpl⟩ := h
    refine ⟨⟨ce, rfl, by simpa using hh⟩, ?_, by simpa using hpl⟩
    intro img himg hne
    rw [himg] at him
    simp [hne] at him
    by_cases hA : jsStartsWith img "/images/" = true
    · simp [hA]
    · simp [him (Bool.not_eq_true _ ▸ (Bool.eq_false_iff.mpr hA))]

/-- The changed test evaluated on a cache-hit model with matching hash and
an absent-or-publish-shaped image: only the placeholder check remains. -/
theorem isChangedModel_eval (md5hex : String → String) (cache : BuildCache)
    (m : ModelEntry) (ce : CacheEntry)
    (hl : cache.models.lookup m.id = some ce)
    (hh : ce.hash = calculateModelHash md5hex m)
    (h3 : m.image = none ∨ ∃ img, m.image = some img ∧
      (jsStartsWith img "/images/" || jsStartsWith img "http") = true) :
    isChangedModel md5hex cache m = (m.image == some placeholderPath) := by
  have hrw : isChangedModel md5hex cache m =
      (ce.hash != calculateModelHash md5hex m ||
        (match m.image with
         | some img =>
           img ≠ "" && !jsStartsWith img "/images/" && !jsStartsWith img "http"
         | none => false) ||
        m.image == some placeholderPath) := by
    unfold isChangedModel
    rw [hl]
  rw [hrw]
  have h1 : (ce.hash != calculateModelHash md5hex m) = false := by simp [hh]
  rw [h1]
  rcases h3 with hnone | ⟨img, him, hsh⟩
  · rw [hnone]
    simp
  · rw [him]
    rcases Bool.or_eq_true_iff.mp hsh with hA | hB
    · simp [hA]
    · simp [hB]

/-- Replacing an image by id leaves the id sequence unchanged. -/
theorem updateById_map_id (l : List ModelEntry) (k : String) (v : Option String) :
    (updateById l k v).map ModelEntry.id = l.map ModelEntry.id := by
  unfold updateById
  rw [List.map_map]
  apply List.map_congr_left
  intro e _
  simp only [Function.comp_apply]
  split <;> rfl

/-- Replacing an image by an id that occurs nowhere is the identity. -/
theorem updateById_of_not_mem (l : List ModelEntry) (k : String) (v : Option String)
    (h : ∀ e ∈ l, (e.id == k) = false) : updateById l k v = l := by
  unfold updateById
  have hc : ∀ e ∈ l, (if e.id == k then { e with image := v } else e) = e := by
    intro e he
    rw [h e he]
    rfl
  rw [List.map_congr_left hc]
  simp

/-- Lookups at other ids see through an image replacement. -/
theorem getById_updateById_other (l : List ModelEntry) (k k' : String)
    (v : Option String) (h : k' ≠ k) :
    getById (updateById l k v) k' = getById l k' := by
  induction l with
  | nil => rfl
  | cons e t ih =>
    by_cases hek : (e.id == k) = true
    · have hidk : e.id = k := by simpa using hek
      have hek' : (e.id == k') = false := by simp [hidk, Ne.symm h]
      have h2 : (({ e with image := v } : ModelEntry).id == k') = false := by
        simpa using hek'
      simp only [updateById, List.map_cons, if_pos hek, getById, List.find?_cons,
        h2, hek']
      exact ih
    · simp only [updateById, List.map_cons, if_neg hek, getById, List.find?_cons]
      by_cases hk' : (e.id == k') = true
      · simp only [hk']
      · have hk'f : (e.id == k') = false := by simpa using hk'
        simp only [hk'f]
        exact ih

/-- The lookup at the replaced id sees the replaced image. -/
theorem getById_updateById_self (l : List ModelEntry) (k : String)
    (v : Option String) (m : ModelEntry) (hg : getById l k = some m) :
    getById (updateById l k v) k = some { m with image := v } := by
  induction l with
  | nil => exact absurd hg (by simp [getById])
  | cons e t ih =>
    by_cases hek : (e.id == k) = true
    · have hme : e = m := by
        have h1 := hg
        simp only [getById, List.find?_cons, hek] at h1
        exact Option.some.inj h1
      subst hme
      have h2 : (({ e with image := v } : ModelEntry).id == k) = true := by
        simpa using hek
      show List.find? (fun x => x.id == k)
          (List.map (fun x => if x.id == k then { x with image := v } else x)
            (e :: t)) = _
      rw [List.map_cons, if_pos hek, List.find?_cons, h2]
    · have hekf : (e.id == k) = false := by simpa using hek
      have hg' : getById t k = some m := by
        have h1 := hg
        simp only [getById, List.find?_cons, hekf] at h1
        exact h1
      show List.find? (fun x => x.id == k)
          (List.map (fun x => if x.id == k then { x with image := v } else x)
            (e :: t)) = _
      rw [List.map_cons, if_neg (by simp [hekf]), List.find?_cons, hekf]
      exact ih hg'

/-- In a duplicate-free catalog every member is found by its own id. -/
theorem getById_mem_unique (l : List ModelEntry)
    (hn : (l.map ModelEntry.id).Nodup) (m : ModelEntry) (hm : m ∈ l) :
    getById l m.id = some m := by
  induction l with
  | nil => cases hm
  | cons e t ih =>
    rw [List.map_cons, List.nodup_cons] at hn
    rcases List.mem_cons.mp hm with rfl | hmt
    · simp [getById, List.find?_cons]
    · have hne : (e.id == m.id) = false := by
        have hmem : m.id ∈ t.map ModelEntry.id := List.mem_map_of_mem ModelEntry.id hmt
        simp only [beq_eq_false_iff_ne, ne_eq]
        intro he
        exact hn.1 (he ▸ hmem)
      simp only [getById, List.find?_cons, hne]
      exact ih hn.2 hmt

/-- In a duplicate-free catalog the entry found by an id is the only one
carrying it. -/
theorem eq_of_getById (l : List ModelEntry) (hn : (l.map ModelEntry.id).Nodup)
    (m e : ModelEntry) (hg : getById l m.id = some m) (he : e ∈ l)
    (hid : e.id = m.id) : e = m := by
  have h1 := getById_mem_unique l hn e he
  rw [hid, hg] at h1
  exact (Option.some.inj h1).symm

/-- Replacing by the image already present is the identity. -/
theorem updateById_self_image (l : List ModelEntry)
    (hn : (l.map ModelEntry.id).Nodup) (k : String) (m : ModelEntry)
    (hg : getById l k = some m) : updateById l k m.image = l := by
  have hg' : List.find? (fun e => e.id == k) l = some m := hg
  have hid : m.id = k := by simpa using List.find?_some hg'
  have hgm : getById l m.id = some m := by rw [hid]; exact hg
  apply List.ext_getElem
  · simp [updateById]
  · intro i h1 h2
    show (List.map _ l)[i] = l[i]
    rw [List.getElem_map]
    by_cases hek : (l[i].id == k) = true
    · have heq : l[i] = m :=
        eq_of_getById l hn m l[i] hgm (List.getElem_mem ..) (by
          have ha : l[i].id = k := by simpa using hek
          rw [ha, hid])
      rw [if_pos hek, heq]
    · rw [if_neg hek]

/-- The position `findIndex` locates, rewritten as the by-id update. -/
theorem updateAt_eq_updateById (l : List ModelEntry) (k : String) (v : Option String) :
    ∀ idx, (l.map ModelEntry.id).Nodup →
      l.findIdx? (fun e => e.id == k) = some idx →
      updateAt l idx (fun e => { e with image := v }) = updateById l k v := by
  induction l with
  | nil => intro idx _ hf; simp at hf
  | cons e t ih =>
    intro idx hn hf
    rw [List.map_cons, List.nodup_cons] at hn
    by_cases hek : (e.id == k) = true
    · rw [List.findIdx?_cons, if_pos hek] at hf
      cases hf
      show ({ e with image := v } : ModelEntry) :: t = updateById (e :: t) k v
      have ht : updateById t k v = t := by
        apply updateById_of_not_mem
        intro x hx
        have : x.id ∈ t.map ModelEntry.id := List.mem_map_of_mem ModelEntry.id hx
        have hek' : e.id = k := by simpa using hek
        simp only [beq_eq_false_iff_ne, ne_eq]
        intro hxk
        have hxe : x.id = e.id := hxk.trans hek'.symm
        exact hn.1 (hxe ▸ this)
      simp only [updateById, List.map_cons, if_pos hek]
      show _ = _ :: List.map _ t
      rw [show List.map
        (fun e => if e.id == k then { e with image := v } else e) t = t from ht]
    · rw [List.findIdx?_cons, if_neg hek, List.findIdx?_start_succ] at hf
      rcases Option.map_eq_some'.mp hf with ⟨j, hj, rfl⟩
      show e :: updateAt t j _ = updateById (e :: t) k v
      rw [ih j hn.2 hj]
      simp only [updateById, List.map_cons, if_neg hek]

/-- One materializer iteration, restated as the by-id image update, the
cache image-path record, and the performed copy. -/
theorem materializeStep_eq (fs : FileSys) (m : ModelEntry) (data : List ModelEntry)
    (cache : BuildCache) (copies : List CopyOp)
    (hn : (data.map ModelEntry.id).Nodup) (hg : getById data m.id = some m) :
    materializeStep fs m data cache copies =
      (updateById data m.id (matImage fs m), matCacheUpd fs cache m,
        copies ++ (copyOf fs m).toList) := by
  obtain ⟨idx, hidx⟩ : ∃ idx, data.findIdx? (fun e => e.id == m.id) = some idx := by
    cases hfi : data.findIdx? (fun e => e.id == m.id) with
    | some i => exact ⟨i, rfl⟩
    | none =>
      rw [List.findIdx?_eq_none_iff] at hfi
      have hmem := List.mem_of_find?_eq_some hg
      have := hfi m hmem
      simp at this
  have hupd : ∀ v, updateAt data idx (fun e => { e with image := v }) =
      updateById data m.id v :=
    fun v => updateAt_eq_updateById data m.id v idx hn hidx
  unfold materializeStep
  rw [hidx]
  cases him : m.image with
  | none =>
    simp [matImage, copyOf, matCacheUpd, him, hupd]
  | some img =>
    by_cases he : img = ""
    · subst he
      simp [matImage, copyOf, matCacheUpd, him, hupd]
    · by_cases hraw : (!jsStartsWith img "http" && !jsStartsWith img "/images/") = true
      · by_cases hex : fs.existsSync img = true
        · simp [matImage, copyOf, matCacheUpd, him, he, hraw, hex, hupd]
        · by_cases hsp : m.sourcePath = ""
          · simp [matImage, copyOf, matCacheUpd, him, he, hraw, hex, hsp, hupd]
          · cases halt : findAlternativeImage fs (dirname m.sourcePath) m.name with
            | some alt =>
              simp [matImage, copyOf, matCacheUpd, him, he, hraw, hex, hsp, halt, hupd]
            | none =>
              simp [matImage, copyOf, matCacheUpd, him, he, hraw, hex, hsp, halt, hupd]
      · have hraw' : (!jsStartsWith img "http" && !jsStartsWith img "/images/") = false :=
          by simpa using hraw
        have hnraw : ¬((!jsStartsWith img "http" && !jsStartsWith img "/images/") = true) := by
          simp [hraw']
        have hmat : matImage fs m = some img := by
          simp [matImage, him, he, hraw']
        have hcop : copyOf fs m = none := by
          simp [copyOf, him, he, hraw']
        have hupd2 : updateById data m.id (some img) = data := by
          rw [← him]
          exact updateById_self_image data hn m.id m hg
        simp [hmat, hcop, hraw', he, matCacheUpd, hupd2]

/-- The image a processed model ends with is always publish-shaped or an
absolute URL. -/
theorem matImage_shaped (fs : FileSys) (m : ModelEntry) :
    ∃ img, matImage fs m = some img ∧
      (jsStartsWith img "/images/" || jsStartsWith img "http") = true := by
  have hplace : (jsStartsWith placeholderPath "/images/" ||
      jsStartsWith placeholderPath "http") = true := by decide
  have happ : ∀ t, (jsStartsWith ("/images/" ++ t) "/images/" ||
      jsStartsWith ("/images/" ++ t) "http") = true := by
    intro t
    rw [jsStartsWith_append]
    rfl
  cases him : m.image with
  | none => exact ⟨placeholderPath, by simp [matImage, him], hplace⟩
  | some img =>
    by_cases he : img = ""
    · exact ⟨placeholderPath, by simp [matImage, him, he], hplace⟩
    · by_cases hraw : (!jsStartsWith img "http" && !jsStartsWith img "/images/") = true
      · by_cases hex : fs.existsSync img = true
        · exact ⟨"/images/" ++ ("model-" ++ m.id ++ "-" ++ basename img),
            by simp [matImage, him, he, hraw, hex], happ _⟩
        · by_cases hsp : m.sourcePath = ""
          · exact ⟨placeholderPath, by simp [matImage, him, he, hraw, hex, hsp], hplace⟩
          · cases halt : findAlternativeImage fs (dirname m.sourcePath) m.name with
            | some alt =>
              exact ⟨"/images/" ++ ("model-" ++ m.id ++ "-" ++ basename alt),
                by simp [matImage, him, he, hraw, hex, hsp, halt], happ _⟩
            | none =>
              exact ⟨placeholderPath,
                by simp [matImage, him, he, hraw, hex, hsp, halt], hplace⟩
      · have hraw' : (!jsStartsWith img "http" && !jsStartsWith img "/images/") = false :=
          by simpa using hraw
        have hor : jsStartsWith img "http" = true ∨ jsStartsWith img "/images/" = true := by
          by_cases hA : jsStartsWith img "http" = true
          · exact Or.inl hA
          · have hA2 : jsStartsWith img "http" = false := by simpa using hA
            have h := hraw'
            rw [hA2] at h
            simp only [Bool.not_false, Bool.true_and, Bool.not_eq_false'] at h
            exact Or.inr h
        refine ⟨img, by simp [matImage, him, he, hraw'], ?_⟩
        rcases hor with h | h <;> simp [h]

/-- On a nonempty image already shaped as a URL or publish path, the
materializer changes nothing and copies nothing. -/
theorem shaped_noICC (fs : FileSys) (m : ModelEntry) (img : String)
    (him : m.image = some img) (hne : img ≠ "")
    (hsh : (jsStartsWith img "/images/" || jsStartsWith img "http") = true) :
    matImage fs m = m.image ∧ copyOf fs m = none := by
  have hraw : (!jsStartsWith img "http" && !jsStartsWith img "/images/") = false := by
    rcases Bool.or_eq_true_iff.mp hsh with h | h <;> simp [h]
  exact ⟨by simp [matImage, him, hne, hraw], by simp [copyOf, him, hne, hraw]⟩

/-- The materializer over a duplicate-free catalog: each processed model's
entry receives its materialized image, everything else is untouched, the
cache receives the image-path records, and the copies are exactly those of
the processed models in order. -/
theorem processModelImages_spec (fs : FileSys) :
    ∀ (toProcess data : List ModelEntry) (cache : BuildCache) (copies : List CopyOp),
      (data.map ModelEntry.id).Nodup →
      (toProcess.map ModelEntry.id).Nodup →
      (∀ m ∈ toProcess, getById data m.id = some m) →
      processModelImages fs toProcess data cache copies =
        (data.map fun e =>
            if toProcess.any (fun mm => mm.id == e.id) = true then
              { e with image := matImage fs e }
            else e,
          toProcess.foldl (matCacheUpd fs) cache,
          copies ++ toProcess.filterMap (copyOf fs)) := by
  intro toProcess
  induction toProcess with
  | nil =>
    intro data cache copies hnd hnt hg
    simp [processModelImages]
  | cons m rest ih =>
    intro data cache copies hnd hnt hg
    have hgm : getById data m.id = some m := hg m (by simp)
    have hstep := materializeStep_eq fs m data cache copies hnd hgm
    show (let (d1, c1, cp1) := materializeStep fs m data cache copies
      processModelImages fs rest d1 c1 cp1) = _
    rw [hstep]
    have hnd' : ((updateById data m.id (matImage fs m)).map ModelEntry.id).Nodup := by
      rw [updateById_map_id]
      exact hnd
    rw [List.map_cons, List.nodup_cons] at hnt
    have hg' : ∀ mm ∈ rest,
        getById (updateById data m.id (matImage fs m)) mm.id = some mm := by
      intro mm hmm
      have hne : mm.id ≠ m.id := by
        intro he
        exact hnt.1 (he ▸ List.mem_map_of_mem ModelEntry.id hmm)
      rw [getById_updateById_other _ _ _ _ hne]
      exact hg mm (by simp [hmm])
    show processModelImages fs rest _ _ _ = _
    rw [ih _ _ _ hnd' hnt.2 hg']
    simp only [Prod.mk.injEq]
    refine ⟨?_, rfl, ?_⟩
    · show (updateById data m.id (matImage fs m)).map _ = data.map _
      unfold updateById
      rw [List.map_map]
      apply List.map_congr_left
      intro e he
      simp only [Function.comp_apply]
      by_cases hek : (e.id == m.id) = true
      · have heq : e = m := eq_of_getById data hnd m e hgm he (by simpa using hek)
        subst heq
        rw [if_pos hek]
        have hanyr : rest.any
            (fun mm => mm.id == ({ e with image := matImage fs e } : ModelEntry).id) =
              false := by
          apply List.any_eq_false.mpr
          intro mm hmm
          have hne : mm.id ≠ e.id := by
            intro hee
            exact hnt.1 (hee ▸ List.mem_map_of_mem ModelEntry.id hmm)
          simpa using hne
        have hanyc : (e :: rest).any (fun mm => mm.id == e.id) = true := by
          simp [List.any_cons]
        rw [if_neg (by simp [hanyr]), hanyc, if_pos rfl]
      · rw [if_neg hek]
        have hme : (m.id == e.id) = false := by
          simp only [beq_eq_false_iff_ne, ne_eq]
          intro hh
          exact (by simpa using hek : e.id ≠ m.id) hh.symm
        have hcons : (m :: rest).any (fun mm => mm.id == e.id) =
            rest.any (fun mm => mm.id == e.id) := by
          simp [List.any_cons, hme]
        rw [hcons]
    · rw [List.append_assoc]
      cases hcop : copyOf fs m with
      | none => simp [List.filterMap_cons, hcop]
      | some op => simp [List.filterMap_cons, hcop]

/-- When every model handed to the materializer already carries a shaped
image, nothing happens at all: no catalog change, no cache change, no copy. -/
theorem processModelImages_noop (fs : FileSys) :
    ∀ (toProcess data : List ModelEntry) (cache : BuildCache) (copies : List CopyOp),
      (∀ m ∈ toProcess, ∃ img, m.image = some img ∧ img ≠ "" ∧
        (jsStartsWith img "/images/" || jsStartsWith img "http") = true) →
      processModelImages fs toProcess data cache copies = (data, cache, copies) := by
  intro toProcess
  induction toProcess with
  | nil => intro data cache copies _; rfl
  | cons m rest ih =>
    intro data cache copies hsh
    obtain ⟨img, him, hne, hshape⟩ := hsh m (by simp)
    have hraw : (!jsStartsWith img "http" && !jsStartsWith img "/images/") = false := by
      rcases Bool.or_eq_true_iff.mp hshape with h | h <;> simp [h]
    have hstep : materializeStep fs m data cache copies = (data, cache, copies) := by
      unfold materializeStep
      cases hfi : data.findIdx? (fun e => e.id == m.id) with
      | none => rfl
      | some idx => simp [him, hne, hraw]
    show (let (d1, c1, cp1) := materializeStep fs m data cache copies
      processModelImages fs rest d1 c1 cp1) = _
    rw [hstep]
    exact ih data cache copies (fun mm hmm => hsh mm (by simp [hmm]))

/-- The categorizer over a duplicate-free catalog: the changed and
unchanged lists are the order-preserving partition by the changed test
against the loaded cache, and afterwards every model has a cache entry
whose hash is its current mergeable-fields hash. -/
theorem categorizeModels_spec (md5hex : String → String) (now : String) :
    ∀ (models : List ModelEntry) (cache : BuildCache),
      (models.map ModelEntry.id).Nodup →
      (categorizeModels md5hex now models cache).1 =
          models.filter (fun m => isChangedModel md5hex cache m) ∧
        (categorizeModels md5hex now models cache).2.1 =
          models.filter (fun m => !isChangedModel md5hex cache m) ∧
        (∀ m ∈ models, ∃ e,
          ((categorizeModels md5hex now models cache).2.2).models.lookup m.id =
              some e ∧
            e.hash = calculateModelHash md5hex m) ∧
        (∀ k, k ∉ models.map ModelEntry.id →
          ((categorizeModels md5hex now models cache).2.2).models.lookup k =
            cache.models.lookup k) := by
  intro models
  induction models with
  | nil =>
    intro cache _
    exact ⟨rfl, rfl, by simp, fun k _ => rfl⟩
  | cons m rest ih =>
    intro cache hn
    rw [List.map_cons, List.nodup_cons] at hn
    by_cases hch : isChangedModel md5hex cache m = true
    · have hpred : ∀ mm ∈ rest,
          isChangedModel md5hex
            (setCacheEntry cache m.id ⟨calculateModelHash md5hex m, now, none⟩) mm =
            isChangedModel md5hex cache mm := by
        intro mm hmm
        apply isChangedModel_congr
        apply assocSet_lookup_other
        intro he
        exact hn.1 (he ▸ List.mem_map_of_mem ModelEntry.id hmm)
      rcases hrec : categorizeModels md5hex now rest
          (setCacheEntry cache m.id ⟨calculateModelHash md5hex m, now, none⟩) with
        ⟨nw, unf, cf⟩
      have hstep : categorizeModels md5hex now (m :: rest) cache = (m :: nw, unf, cf) := by
        simp [categorizeModels, hch, hrec]
      obtain ⟨ih1, ih2, ih3, ih4⟩ := ih
        (setCacheEntry cache m.id ⟨calculateModelHash md5hex m, now, none⟩) hn.2
      rw [hrec] at ih1 ih2 ih3 ih4
      dsimp only at ih1 ih2 ih3 ih4
      refine ⟨?_, ?_, ?_, ?_⟩
      · rw [hstep, List.filter_cons_of_pos hch]
        show m :: nw = _
        rw [ih1, List.filter_congr hpred]
      · rw [hstep, List.filter_cons_of_neg (by simp [hch])]
        show unf = _
        rw [ih2]
        apply List.filter_congr
        intro mm hmm
        rw [hpred mm hmm]
      · intro mm hmm
        rcases List.mem_cons.mp hmm with rfl | hmt
        · refine ⟨⟨calculateModelHash md5hex mm, now, none⟩, ?_, rfl⟩
          rw [hstep]
          show cf.models.lookup mm.id = _
          rw [ih4 mm.id hn.1]
          simp only [setCacheEntry]
          rw [assocSet_lookup_self]
        · obtain ⟨e, he1, he2⟩ := ih3 mm hmt
          exact ⟨e, by rw [hstep]; exact he1, he2⟩
      · intro k hk
        rw [List.map_cons, List.mem_cons] at hk
        push_neg at hk
        rw [hstep]
        show cf.models.lookup k = _
        rw [ih4 k (by simpa using hk.2)]
        simp only [setCacheEntry]
        rw [assocSet_lookup_other _ _ _ _ hk.1]
    · have hchf : isChangedModel md5hex cache m = false := by simpa using hch
      rcases hrec : categorizeModels md5hex now rest cache with ⟨nw, unf, cf⟩
      have hstep : categorizeModels md5hex now (m :: rest) cache = (nw, m :: unf, cf) := by
        simp [categorizeModels, hchf, hrec]
      obtain ⟨ih1, ih2, ih3, ih4⟩ := ih cache hn.2
      rw [hrec] at ih1 ih2 ih3 ih4
      dsimp only at ih1 ih2 ih3 ih4
      refine ⟨?_, ?_, ?_, ?_⟩
      · rw [hstep, List.filter_cons_of_neg (by simp [hchf])]
        exact ih1
      · rw [hstep, List.filter_cons_of_pos (by simp [hchf])]
        show m :: unf = _
        rw [ih2]
      · intro mm hmm
        rcases List.mem_cons.mp hmm with rfl | hmt
        · obtain ⟨⟨ce, hce1, hce2⟩, _, _⟩ := isChangedModel_false_facts md5hex cache mm hchf
          refine ⟨ce, ?_, hce2⟩
          rw [hstep]
          show cf.models.lookup mm.id = _
          rw [ih4 mm.id hn.1]
          exact hce1
        · obtain ⟨e, he1, he2⟩ := ih3 mm hmt
          exact ⟨e, by rw [hstep]; exact he1, he2⟩
      · intro k hk
        rw [List.map_cons, List.mem_cons] at hk
        push_neg at hk
        rw [hstep]
        show cf.models.lookup k = _
        exact ih4 k (by simpa using hk.2)

/-- Lookups commute with id-preserving maps. -/
theorem getById_map (l : List ModelEntry) (F : ModelEntry → ModelEntry)
    (hF : ∀ e, (F e).id = e.id) (k : String) :
    getById (l.map F) k = (getById l k).map F := by
  induction l with
  | nil => rfl
  | cons e t ih =>
    show List.find? _ (F e :: t.map F) = _
    rw [List.find?_cons]
    have hsc : ((F e).id == k) = (e.id == k) := by rw [hF]
    rw [hsc]
    cases hek : e.id == k
    · rw [show getById (e :: t) k = getById t k from by
        simp [getById, List.find?_cons, hek]]
      exact ih
    · rw [show getById (e :: t) k = some e from by
        simp [getById, List.find?_cons, hek]]
      rfl

/-- A recorded copy always belongs to the model that caused it. -/
theorem copyOf_modelId (fs : FileSys) (m : ModelEntry) (op : CopyOp)
    (h : copyOf fs m = some op) : op.modelId = m.id := by
  unfold copyOf at h
  repeat' split at h
  all_goals first
    | exact absurd h (fun hc => Option.noConfusion hc)
    | (injection h with h2
       subst h2
       rfl)

/-- C6: a model is marked changed exactly when its cache entry is missing,
its cached hash differs from the MD5 of its mergeable fields (which
exclude image and dateAdded), its nonempty image value is neither
publish-path-shaped nor an absolute URL, or its image is the placeholder;
models not marked changed are excluded from image processing and keep
their image untouched. -/
theorem categorize_changed_iff_and_unchanged_untouched (md5hex : String → String)
    (now : String) (fs : FileSys) (models : List ModelEntry) (cache : BuildCache)
    (hn : (models.map ModelEntry.id).Nodup) :
    (∀ m, isChangedModel md5hex cache m = true ↔ SpecChanged md5hex cache m) ∧
      (∀ (m : ModelEntry) (i : Option String) (d : String),
        calculateModelHash md5hex { m with image := i, dateAdded := d } =
          calculateModelHash md5hex m) ∧
      (categorizeModels md5hex now models cache).1 =
        models.filter (fun m => isChangedModel md5hex cache m) ∧
      (categorizeModels md5hex now models cache).2.1 =
        models.filter (fun m => !isChangedModel md5hex cache m) ∧
      (∀ m ∈ (categorizeModels md5hex now models cache).2.1,
        getById (processModelImages fs (categorizeModels md5hex now models cache).1
            models (categorizeModels md5hex now models cache).2.2 []).1 m.id =
          some m) := by
  obtain ⟨hc1, hc2, _, _⟩ := categorizeModels_spec md5hex now models cache hn
  have hiff : ∀ m, isChangedModel md5hex cache m = true ↔ SpecChanged md5hex cache m := by
    intro m
    unfold SpecChanged
    cases hl : cache.models.lookup m.id with
    | none =>
      constructor
      · intro _
        exact Or.inl rfl
      · intro _
        unfold isChangedModel
        rw [hl]
    | some ce =>
      have hrw : isChangedModel md5hex cache m =
          (ce.hash != calculateModelHash md5hex m ||
            (match m.image with
             | some img =>
               img ≠ "" && !jsStartsWith img "/images/" && !jsStartsWith img "http"
             | none => false) ||
            m.image == some placeholderPath) := by
        unfold isChangedModel
        rw [hl]
      rw [hrw]
      constructor
      · intro h
        rcases Bool.or_eq_true_iff.mp h with h12 | hpl
        · rcases Bool.or_eq_true_iff.mp h12 with hh | him
          · exact Or.inr (Or.inl ⟨ce, rfl, by simpa using hh⟩)
          · cases hi : m.image with
            | none => rw [hi] at him; exact absurd him (by simp)
            | some img =>
              rw [hi] at him
              simp only [Bool.and_eq_true, decide_eq_true_eq, Bool.not_eq_true'] at him
              exact Or.inr (Or.inr (Or.inl ⟨img, rfl, him.1.1, him.1.2, him.2⟩))
        · exact Or.inr (Or.inr (Or.inr (by simpa using hpl)))
      · intro h
        rcases h with h | ⟨ce', hce', hne⟩ | ⟨img, him, hne, hA, hB⟩ | hpl
        · exact absurd h (by simp)
        · have hc : ce = ce' := Option.some.inj hce'
          subst hc
          have hbne : (ce.hash != calculateModelHash md5hex m) = true := by
            simpa using hne
          simp [hbne]
        · rw [him]
          simp [hne, hA, hB]
        · rw [hpl]
          simp
  refine ⟨hiff, fun m i d => rfl, hc1, hc2, ?_⟩
  intro m hm
  rw [hc2] at hm
  obtain ⟨hmem, hpredb⟩ := List.mem_filter.mp hm
  have hpred : isChangedModel md5hex cache m = false := by simpa using hpredb
  have hnw : ((categorizeModels md5hex now models cache).1.map ModelEntry.id).Nodup := by
    rw [hc1]
    exact ((List.filter_sublist models).map ModelEntry.id).nodup hn
  have hgt : ∀ mm ∈ (categorizeModels md5hex now models cache).1,
      getById models mm.id = some mm := by
    intro mm hmm
    rw [hc1] at hmm
    exact getById_mem_unique models hn mm (List.mem_of_mem_filter hmm)
  rw [processModelImages_spec fs _ models _ [] hn hnw hgt]
  have hF : ∀ e : ModelEntry,
      ((fun e => if (categorizeModels md5hex now models cache).1.any
          (fun mm => mm.id == e.id) = true then
            { e with image := matImage fs e } else e) e).id = e.id := by
    intro e
    dsimp only
    split <;> rfl
  rw [getById_map _ _ hF, getById_mem_unique models hn m hmem]
  have hany : (categorizeModels md5hex now models cache).1.any
      (fun mm => mm.id == m.id) = false := by
    apply List.any_eq_false.mpr
    intro mm hmm
    rw [hc1] at hmm
    obtain ⟨hmm2, hmmp⟩ := List.mem_filter.mp hmm
    intro hid0
    have hid : mm.id = m.id := by simpa using hid0
    have : mm = m := eq_of_getById models hn m mm
      (getById_mem_unique models hn m hmem) hmm2 hid
    subst this
    rw [hpred] at hmmp
    cases hmmp
  simp only [Option.map_some']
  rw [hany]
  simp

/-- C6 witness: the categorizer at work on the concrete one-model catalog
with an empty cache. -/
theorem categorize_changed_iff_witness :
    (categorizeModels mdConstHash "B1" [goblinPriorEntry] ⟨[], none⟩).1 =
      [goblinPriorEntry].filter
        (fun m => isChangedModel mdConstHash ⟨[], none⟩ m) :=
  (categorize_changed_iff_and_unchanged_untouched mdConstHash "B1" emptyFs
    [goblinPriorEntry] ⟨[], none⟩ (by decide)).2.2.1

/-- C5 counterexample: a document with a `release` entry in
`scancfg.attributes.include` but no `modelmeta` section is classified
Ignored, not Release. -/
theorem release_attr_without_modelmeta_ignored :
    ((releaseDocNoMeta.scancfg.bind ScanCfgSec.attributesInclude).getD []).any
        (fun a => a.key == "release" || a.key == "subscription") = true ∧
      (releaseDocNoMeta.scancfg.bind ScanCfgSec.attributesInclude).isSome = true ∧
      classify releaseDocNoMeta = ConfigClass.Ignored := by
  refine ⟨by decide, by decide, by decide⟩

/-- C5 (amended): a document is classified Release iff its `modelmeta`
section is present and its `scancfg.attributes.include` list exists with a
`release` or `subscription` key; the release test runs before the model
test, so such a document is Release even with a non-null model name; and a
document failing both tests is silently Ignored. -/
theorem classify_release_iff (c : ConfigDoc) :
    (classify c = ConfigClass.Release ↔
      (c.modelmeta.isSome = true ∧
        ∃ incl, c.scancfg.bind ScanCfgSec.attributesInclude = some incl ∧
          ∃ a ∈ incl, a.key = "release" ∨ a.key = "subscription")) ∧
    (isReleaseConfig c = true → classify c = ConfigClass.Release) ∧
    (isReleaseConfig c = false → isValidModelConfig c = false →
      classify c = ConfigClass.Ignored) := by
  refine ⟨?_, ?_, ?_⟩
  · have hrel : isReleaseConfig c = true ↔
        (c.modelmeta.isSome = true ∧
          ∃ incl, c.scancfg.bind ScanCfgSec.attributesInclude = some incl ∧
            ∃ a ∈ incl, a.key = "release" ∨ a.key = "subscription") := by
      unfold isReleaseConfig
      rcases c with ⟨_ | sc, _ | mm⟩ <;>
        simp [Option.bind, List.any_eq_true]
      rcases sc.attributesInclude with _ | incl <;> simp
    rw [← hrel]
    unfold classify
    constructor
    · intro h
      by_cases hr : isReleaseConfig c = true
      · exact hr
      · rw [if_neg hr] at h
        split at h <;> exact absurd h (by decide)
    · intro h
      simp [h]
  · intro h
    simp [classify, h]
  · intro h1 h2
    simp [classify, h1, h2]

/-- C5 witness: the release test at work on a concrete document that also
carries a non-null model name. -/
theorem classify_release_iff_witness :
    classify releaseDocWithName = ConfigClass.Release :=
  (classify_release_iff releaseDocWithName).1.mpr
    ⟨by decide, [⟨"subscription", "S1"⟩], by decide,
      ⟨"subscription", "S1"⟩, by decide, Or.inr rfl⟩

/-- C9 counterexample: a full pipeline run (extraction then
materialization) over a one-model tree with no prior catalog, an empty
filesystem listing, and a build cache already holding the model's
mergeable hash leaves the model in the final catalog with an absent image:
the categorizer's truthy test skips falsy images, so the unchanged model
never reaches image processing. -/
theorem materialization_can_leave_absent_image :
    (fullRun mdConstHash "/r" emptyFs goblinCfgs none goblinCache
        "T1" "B1" 0 0 "0").1.models.map ModelEntry.image = [none] ∧
      (fullRun mdConstHash "/r" emptyFs goblinCfgs none goblinCache
        "T1" "B1" 0 0 "0").2.2 = [] := by
  exact ⟨by decide, by decide⟩

/-- C9 (amended): after image materialization over a duplicate-free
catalog, every entry whose image is present and nonempty is
absolute-URL-shaped or rooted under the publish-image path; an entry
categorized unchanged with an absent or empty image keeps it, so absent
images can survive materialization. -/
theorem materialization_image_shape (md5hex : String → String) (now : String)
    (fs : FileSys) (models : List ModelEntry) (cache : BuildCache)
    (hn : (models.map ModelEntry.id).Nodup) :
    ∀ e ∈ (processModelImages fs (categorizeModels md5hex now models cache).1
        models (categorizeModels md5hex now models cache).2.2 []).1,
      ∀ img, e.image = some img → img ≠ "" →
        (jsStartsWith img "/images/" || jsStartsWith img "http") = true := by
  obtain ⟨hc1, _, _, _⟩ := categorizeModels_spec md5hex now models cache hn
  have hnw : ((categorizeModels md5hex now models cache).1.map ModelEntry.id).Nodup := by
    rw [hc1]
    exact ((List.filter_sublist models).map ModelEntry.id).nodup hn
  have hgt : ∀ mm ∈ (categorizeModels md5hex now models cache).1,
      getById models mm.id = some mm := by
    intro mm hmm
    rw [hc1] at hmm
    exact getById_mem_unique models hn mm (List.mem_of_mem_filter hmm)
  rw [processModelImages_spec fs _ models _ [] hn hnw hgt]
  intro e he img him hne
  simp only [List.mem_map] at he
  obtain ⟨m0, hm0, he⟩ := he
  by_cases hany : (categorizeModels md5hex now models cache).1.any
      (fun mm => mm.id == m0.id) = true
  · rw [if_pos hany] at he
    obtain ⟨img2, hmi, hsh⟩ := matImage_shaped fs m0
    have : e.image = matImage fs m0 := by rw [← he]
    rw [him, hmi] at this
    obtain rfl : img2 = img := by
      injection this.symm with h2
    exact hsh
  · rw [if_neg hany] at he
    have hch : isChangedModel md5hex cache m0 = false := by
      by_contra hc
      have hct : isChangedModel md5hex cache m0 = true := by
        cases h : isChangedModel md5hex cache m0
        · exact absurd h hc
        · rfl
      apply hany
      apply List.any_eq_true.mpr
      refine ⟨m0, ?_, by simp⟩
      rw [hc1]
      exact List.mem_filter.mpr ⟨hm0, hct⟩
    have him0 : m0.image = some img := by rw [he]; exact him
    exact (isChangedModel_false_facts md5hex cache m0 hch).2.1 img him0 hne

/-- C9 witness: the amended shape property at a concrete one-model catalog
whose unchanged entry already holds a published image. -/
theorem materialization_image_shape_witness :
    (jsStartsWith "/images/x.png" "/images/" ||
      jsStartsWith "/images/x.png" "http") = true :=
  materialization_image_shape mdConstHash "B1" thumbFs [goblinPriorEntry]
    goblinCache (by decide) goblinPriorEntry (by decide) "/images/x.png" rfl
    (by decide)

/-- C10: once the prior catalog's image for an id is publish-path-shaped
and not the placeholder, or an absolute URL, a run producing the same id
keeps that image exactly: the extractor preserves it and its output does
not depend on the filesystem, and the materializer leaves the entry
untouched and records no copy for that id, whatever the changed set. -/
theorem stable_image_frame (md5hex : String → String) (root now : String)
    (fs : FileSys) (prior : Catalog) (cfg : ConfigDoc) (p : String)
    (rels : List ConfigDoc) (img : String)
    (hlook : lookupLast (imageMapOf prior) (modelIdOf md5hex root cfg p) = some img)
    (hsh : (jsStartsWith img "/images/" = true ∧ img ≠ placeholderPath) ∨
      jsStartsWith img "http" = true) :
    (processModelConfig md5hex root now fs (imageMapOf prior) cfg p rels).image =
        some img ∧
      (∀ fs' : FileSys,
        processModelConfig md5hex root now fs' (imageMapOf prior) cfg p rels =
          processModelConfig md5hex root now fs (imageMapOf prior) cfg p rels) ∧
      (∀ m : ModelEntry, m.image = some img →
        matImage fs m = some img ∧ copyOf fs m = none) ∧
      (∀ (toProcess data : List ModelEntry) (cache : BuildCache) (m : ModelEntry),
        (data.map ModelEntry.id).Nodup →
        (toProcess.map ModelEntry.id).Nodup →
        (∀ mm ∈ toProcess, getById data mm.id = some mm) →
        m ∈ data → m.image = some img →
        getById (processModelImages fs toProcess data cache []).1 m.id = some m ∧
          ∀ op ∈ (processModelImages fs toProcess data cache []).2.2,
            op.modelId ≠ m.id) := by
  have hshb : (jsStartsWith img "/images/" || jsStartsWith img "http") = true := by
    rcases hsh with ⟨h, _⟩ | h <;> simp [h]
  have hne : img ≠ "" := by
    rcases hsh with ⟨h, _⟩ | h
    · exact ne_empty_of_jsStartsWith (by decide) h
    · exact ne_empty_of_jsStartsWith (by decide) h
  have hext : ∀ fs₀ : FileSys,
      extractImage md5hex fs₀ (imageMapOf prior) root cfg p = some img := by
    intro fs₀
    simp [extractImage, hlook, hshb]
  refine ⟨?_, ?_, ?_, ?_⟩
  · rw [processModelConfig_image]
    exact hext fs
  · intro fs'
    unfold processModelConfig
    have hbase : baseModelEntry md5hex root now fs' (imageMapOf prior) cfg p =
        baseModelEntry md5hex root now fs (imageMapOf prior) cfg p := by
      unfold baseModelEntry
      rw [hext fs', hext fs]
    rw [hbase]
  · intro m him
    obtain ⟨h1, h2⟩ := shaped_noICC fs m img him hne hshb
    refine ⟨?_, h2⟩
    rw [h1, him]
  · intro toProcess data cache m hnd hnt hg hmem him
    have hgm : getById data m.id = some m := getById_mem_unique data hnd m hmem
    obtain ⟨hmat, hcop⟩ := shaped_noICC fs m img him hne hshb
    rw [processModelImages_spec fs toProcess data cache [] hnd hnt hg]
    constructor
    · have hF : ∀ e : ModelEntry,
          ((fun e => if toProcess.any (fun mm => mm.id == e.id) = true then
            { e with image := matImage fs e } else e) e).id = e.id := by
        intro e
        dsimp only
        split <;> rfl
      rw [getById_map data _ hF m.id, hgm, Option.map_some']
      congr 1
      show (if (toProcess.any fun mm => mm.id == m.id) = true then
          { m with image := matImage fs m } else m) = m
      by_cases hca : (toProcess.any fun mm => mm.id == m.id) = true
      · rw [if_pos hca, hmat]
      · rw [if_neg hca]
    · intro op hop
      have hop2 : op ∈ toProcess.filterMap (copyOf fs) := by simpa using hop
      obtain ⟨mm, hmm, hco⟩ := List.mem_filterMap.mp hop2
      rw [copyOf_modelId fs mm op hco]
      intro heq
      have h1 := hg mm hmm
      rw [heq, hgm] at h1
      have hmmm : mm = m := (Option.some.inj h1).symm
      subst hmmm
      rw [hcop] at hco
      exact Option.noConfusion hco

/-- C10 witness: the frame property at a concrete prior catalog whose
Goblin entry already carries a published image; a later run with a
different timestamp reproduces it exactly. -/
theorem stable_image_frame_witness :
    (processModelConfig mdConstHash "/r" "T2" emptyFs (imageMapOf goblinPriorCat)
        goblinDoc "/r/C1/Goblin/config.orynt3d" []).image = some "/images/x.png" :=
  (stable_image_frame mdConstHash "/r" "T2" emptyFs goblinPriorCat goblinDoc
    "/r/C1/Goblin/config.orynt3d" [] "/images/x.png" (by decide)
    (Or.inl ⟨by decide, by decide⟩)).1

/-- A publish-path-shaped or URL-shaped string is nonempty. -/
theorem shaped_ne_empty {img : String}
    (h : (jsStartsWith img "/images/" || jsStartsWith img "http") = true) :
    img ≠ "" := by
  rcases Bool.or_eq_true_iff.mp h with h | h
  · exact ne_empty_of_jsStartsWith (by decide) h
  · exact ne_empty_of_jsStartsWith (by decide) h

/-- A joined path is never the empty string. -/
theorem pathJoin_ne_empty (a b : String) : pathJoin a b ≠ "" := by
  unfold pathJoin
  intro h
  have hd := congrArg String.data h
  simp only [String.data_append] at hd
  rcases List.append_eq_nil.mp hd with ⟨h1, _⟩
  rcases List.append_eq_nil.mp h1 with ⟨_, h3⟩
  exact absurd h3 (by decide)

/-- A first-success scan over producers of nonempty strings yields a
nonempty string. -/
theorem findSome?_ne_empty (l : List String) (F : String → Option String)
    (hF : ∀ d img, F d = some img → img ≠ "") (img : String)
    (h : l.findSome? F = some img) : img ≠ "" := by
  induction l with
  | nil => cases h
  | cons a t ih =>
    rw [List.findSome?_cons] at h
    cases hfa : F a with
    | some b =>
      rw [hfa] at h
      injection h with hb
      exact hb ▸ hF a b hfa
    | none =>
      rw [hfa] at h
      exact ih h

/-- The model id `processModelConfig` assigns is never empty: it always
contains the dash between slug and hash. -/
theorem modelIdOf_ne_empty (md5hex : String → String) (root : String)
    (cfg : ConfigDoc) (p : String) : modelIdOf md5hex root cfg p ≠ "" := by
  unfold modelIdOf generateStableId
  intro h
  have hd := congrArg String.data h
  simp only [String.data_append] at hd
  rcases List.append_eq_nil.mp hd with ⟨h1, _⟩
  rcases List.append_eq_nil.mp h1 with ⟨_, h3⟩
  exact absurd h3 (by decide)

/-- Every path the cover-image resolver returns is nonempty: each success
branch joins the model directory with a file name. -/
theorem findCoverImage_ne_empty (fs : FileSys) (dir : String) (cov : Option String)
    (img : String) (h : findCoverImage fs dir cov = some img) : img ≠ "" := by
  unfold findCoverImage at h
  dsimp only at h
  repeat' split at h
  all_goals try (injection h with hb0; subst hb0)
  all_goals try (rename_i heq
                 repeat' split at heq
                 all_goals first
                   | exact Option.noConfusion heq
                   | exact pathJoin_ne_empty _ _
                   | (injection heq with hb; exact hb ▸ pathJoin_ne_empty _ _)
                   | (rw [Option.map_eq_some'] at heq
                      obtain ⟨ext, hx, hfe⟩ := heq
                      exact hfe ▸ pathJoin_ne_empty _ _))
  all_goals (refine findSome?_ne_empty imageSubdirs _ ?_ img h
             intro d img2 h2
             try (dsimp only at h2)
             split at h2
             · rw [Option.map_eq_some'] at h2
               obtain ⟨f2, hx, hfe⟩ := h2
               exact hfe ▸ pathJoin_ne_empty _ _
             · exact Option.noConfusion h2)

/-- Every path the extractor's filesystem image search returns is
nonempty. -/
theorem fsImageSearch_ne_empty (fs : FileSys) (cfg : ConfigDoc) (p : String)
    (img : String) (h : fsImageSearch fs cfg p = some img) : img ≠ "" := by
  unfold fsImageSearch at h
  dsimp only at h
  repeat' split at h
  all_goals try (injection h with hb0; subst hb0)
  all_goals first
    | exact findCoverImage_ne_empty _ _ _ _ h
    | (rename_i heq
       repeat' split at heq
       all_goals first
         | exact Option.noConfusion heq
         | exact findCoverImage_ne_empty _ _ _ _ heq)

/-- A preserved web-friendly prior image short-circuits the extractor's
image resolution. -/
theorem extractImage_of_lookup_shaped (md5hex : String → String) (fs : FileSys)
    (existing : List (String × String)) (root : String) (cfg : ConfigDoc)
    (p img : String)
    (hl : lookupLast existing (modelIdOf md5hex root cfg p) = some img)
    (hs : (jsStartsWith img "/images/" || jsStartsWith img "http") = true) :
    extractImage md5hex fs existing root cfg p = some img := by
  simp [extractImage, hl, hs]

/-- With no prior image recorded for the id, the extractor falls back to
the filesystem search. -/
theorem extractImage_of_lookup_none (md5hex : String → String) (fs : FileSys)
    (existing : List (String × String)) (root : String) (cfg : ConfigDoc)
    (p : String)
    (hl : lookupLast existing (modelIdOf md5hex root cfg p) = none) :
    extractImage md5hex fs existing root cfg p = fsImageSearch fs cfg p := by
  simp [extractImage, hl]

/-- A prior image that is not web-friendly is ignored and the extractor
falls back to the filesystem search. -/
theorem extractImage_of_lookup_unshaped (md5hex : String → String) (fs : FileSys)
    (existing : List (String × String)) (root : String) (cfg : ConfigDoc)
    (p img : String)
    (hl : lookupLast existing (modelIdOf md5hex root cfg p) = some img)
    (hs : (jsStartsWith img "/images/" || jsStartsWith img "http") = false) :
    extractImage md5hex fs existing root cfg p = fsImageSearch fs cfg p := by
  simp [extractImage, hl, hs]

/-- The extractor never records an empty-string image. -/
theorem extractImage_ne_empty (md5hex : String → String) (fs : FileSys)
    (existing : List (String × String)) (root : String) (cfg : ConfigDoc)
    (p img : String) (h : extractImage md5hex fs existing root cfg p = some img) :
    img ≠ "" := by
  cases hl : lookupLast existing (modelIdOf md5hex root cfg p) with
  | none =>
    rw [extractImage_of_lookup_none md5hex fs existing root cfg p hl] at h
    exact fsImageSearch_ne_empty fs cfg p img h
  | some i =>
    by_cases hs : (jsStartsWith i "/images/" || jsStartsWith i "http") = true
    · rw [extractImage_of_lookup_shaped md5hex fs existing root cfg p i hl hs] at h
      injection h with hb
      exact hb ▸ shaped_ne_empty hs
    · rw [extractImage_of_lookup_unshaped md5hex fs existing root cfg p i hl
        (by simpa using hs)] at h
      exact fsImageSearch_ne_empty fs cfg p img h

/-- When the extractor records no image, the filesystem search itself came
up empty. -/
theorem extractImage_none (md5hex : String → String) (fs : FileSys)
    (existing : List (String × String)) (root : String) (cfg : ConfigDoc)
    (p : String) (h : extractImage md5hex fs existing root cfg p = none) :
    fsImageSearch fs cfg p = none := by
  cases hl : lookupLast existing (modelIdOf md5hex root cfg p) with
  | none =>
    rw [extractImage_of_lookup_none md5hex fs existing root cfg p hl] at h
    exact h
  | some i =>
    by_cases hs : (jsStartsWith i "/images/" || jsStartsWith i "http") = true
    · rw [extractImage_of_lookup_shaped md5hex fs existing root cfg p i hl hs] at h
      exact Option.noConfusion h
    · rw [extractImage_of_lookup_unshaped md5hex fs existing root cfg p i hl
        (by simpa using hs)] at h
      exact h

/-- The mergeable-fields hash reads neither `image` nor `dateAdded`. -/
theorem calculateModelHash_frame (md5hex : String → String) (m : ModelEntry)
    (i : Option String) (d : String) :
    calculateModelHash md5hex { m with image := i, dateAdded := d } =
      calculateModelHash md5hex m := rfl

/-- Lookup misses when the key is absent from the association list. -/
theorem lookup_none_of_not_mem_keys {β : Type} (l : List (String × β)) (k : String)
    (h : k ∉ l.map Prod.fst) : l.lookup k = none := by
  induction l with
  | nil => rfl
  | cons kv t ih =>
    obtain ⟨k1, v1⟩ := kv
    rw [List.map_cons, List.mem_cons] at h
    push_neg at h
    have hb : (k == k1) = false := by simpa using h.1
    simp only [List.lookup_cons, hb]
    exact ih h.2

/-- Over duplicate-free keys, looking up from the back equals looking up
from the front. -/
theorem lookup_reverse_of_nodup {β : Type} (l : List (String × β)) (k : String)
    (h : (l.map Prod.fst).Nodup) : l.reverse.lookup k = l.lookup k := by
  induction l with
  | nil => rfl
  | cons kv t ih =>
    obtain ⟨k1, v1⟩ := kv
    rw [List.map_cons, List.nodup_cons] at h
    rw [List.reverse_cons, List.lookup_append, ih h.2]
    by_cases hk : k = k1
    · subst hk
      rw [lookup_none_of_not_mem_keys t k h.1]
      simp [List.lookup_cons]
    · have hb : (k == k1) = false := by simpa using hk
      simp [List.lookup_cons, hb]

/-- The keys of the prior-image map are drawn from the catalog's ids in
order. -/
theorem imageMap_keys_sublist (l : List ModelEntry) :
    List.Sublist ((l.filterMap imfFun).map Prod.fst) (l.map ModelEntry.id) := by
  induction l with
  | nil => exact List.Sublist.refl _
  | cons m t ih =>
    rw [List.map_cons]
    cases hf : imfFun m with
    | none =>
      rw [List.filterMap_cons_none hf]
      exact ih.trans (List.sublist_cons_self _ _)
    | some kv =>
      rw [List.filterMap_cons_some hf, List.map_cons]
      have hk : kv.1 = m.id := by
        unfold imfFun at hf
        split at hf
        · split at hf
          · exact Option.noConfusion hf
          · injection hf with h2
            rw [← h2]
        · exact Option.noConfusion hf
      rw [hk]
      exact List.Sublist.cons₂ _ ih

/-- In a duplicate-free catalog the prior-image map reads back exactly the
stored entry's truthy image. -/
theorem lookup_imageMap (l : List ModelEntry) (hn : (l.map ModelEntry.id).Nodup)
    (m : ModelEntry) (hm : m ∈ l) (hid : m.id ≠ "") :
    (l.filterMap imfFun).lookup m.id =
      match m.image with
      | some img => if img = "" then none else some img
      | none => none := by
  induction l with
  | nil => cases hm
  | cons e t ih =>
    rw [List.map_cons, List.nodup_cons] at hn
    rcases List.mem_cons.mp hm with rfl | hmt
    · have htnone : (t.filterMap imfFun).lookup m.id = none := by
        apply lookup_none_of_not_mem_keys
        intro hk
        exact hn.1 ((imageMap_keys_sublist t).subset hk)
      cases him : m.image with
      | none =>
        have hf : imfFun m = none := by simp [imfFun, him]
        rw [List.filterMap_cons_none hf, htnone]
      | some img =>
        by_cases hie : img = ""
        · have hf : imfFun m = none := by simp [imfFun, him, hie]
          rw [List.filterMap_cons_none hf, htnone, hie]
          decide
        · have hf : imfFun m = some (m.id, img) := by simp [imfFun, him, hid, hie]
          rw [List.filterMap_cons_some hf]
          simp [List.lookup_cons, hie]
    · have hb1 : m.id ∈ t.map ModelEntry.id := List.mem_map_of_mem ModelEntry.id hmt
      cases hf : imfFun e with
      | none =>
        rw [List.filterMap_cons_none hf]
        exact ih hn.2 hmt
      | some kv =>
        obtain ⟨k0, v0⟩ := kv
        have hk : k0 = e.id := by
          unfold imfFun at hf
          split at hf
          · split at hf
            · exact Option.noConfusion hf
            · injection hf with h2
              injection h2 with h3 h4
              exact h3.symm
          · exact Option.noConfusion hf
        have hbne : (m.id == k0) = false := by
          rw [hk]
          simp only [beq_eq_false_iff_ne, ne_eq]
          intro he
          exact hn.1 (he ▸ hb1)
        rw [List.filterMap_cons_some hf]
        simp only [List.lookup_cons, hbne]
        exact ih hn.2 hmt

/-- `loadExistingDataFile` on a duplicate-free catalog: the last-write
lookup reads the unique entry's truthy image. -/
theorem lookupLast_imageMapOf (cat : Catalog)
    (hn : (cat.models.map ModelEntry.id).Nodup) (m : ModelEntry)
    (hm : m ∈ cat.models) (hid : m.id ≠ "") :
    lookupLast (imageMapOf cat) m.id =
      match m.image with
      | some img => if img = "" then none else some img
      | none => none := by
  have he : imageMapOf cat = cat.models.filterMap imfFun := rfl
  unfold lookupLast
  rw [he, lookup_reverse_of_nodup _ _ ((imageMap_keys_sublist _).nodup hn)]
  exact lookup_imageMap cat.models hn m hm hid

/-- The materializer's cache fold never changes any entry's hash. -/
theorem foldl_matCacheUpd_hash (fs : FileSys) (l : List ModelEntry)
    (c : BuildCache) (k : String) :
    (((l.foldl (matCacheUpd fs) c).models.lookup k).map CacheEntry.hash) =
      ((c.models.lookup k).map CacheEntry.hash) := by
  induction l generalizing c with
  | nil => rfl
  | cons m t ih =>
    rw [List.foldl_cons, ih]
    unfold matCacheUpd
    cases hco : copyOf fs m with
    | none => rfl
    | some op => exact cacheSetImagePath_lookup_hash c m.id ("/images/" ++ op.dst) k

/-- `fullRun` unfolded to its three components. -/
theorem fullRun_eq (md5hex : String → String) (root : String) (fs : FileSys)
    (cfgs : List (String × ConfigDoc)) (prior : Option Catalog) (cache : BuildCache)
    (nE nB : String) (d f : Nat) (s : String) :
    fullRun md5hex root fs cfgs prior cache nE nB d f s =
      ({ extractionRun md5hex root nE fs prior cfgs d f s with models :=
          (processModelImages fs
            (categorizeModels md5hex nB
              (extractionRun md5hex root nE fs prior cfgs d f s).models cache).1
            (extractionRun md5hex root nE fs prior cfgs d f s).models
            (categorizeModels md5hex nB
              (extractionRun md5hex root nE fs prior cfgs d f s).models cache).2.2
            []).1 },
        { (processModelImages fs
            (categorizeModels md5hex nB
              (extractionRun md5hex root nE fs prior cfgs d f s).models cache).1
            (extractionRun md5hex root nE fs prior cfgs d f s).models
            (categorizeModels md5hex nB
              (extractionRun md5hex root nE fs prior cfgs d f s).models cache).2.2
            []).2.1 with lastBuild := some nB },
        (processModelImages fs
            (categorizeModels md5hex nB
              (extractionRun md5hex root nE fs prior cfgs d f s).models cache).1
            (extractionRun md5hex root nE fs prior cfgs d f s).models
            (categorizeModels md5hex nB
              (extractionRun md5hex root nE fs prior cfgs d f s).models cache).2.2
            []).2.2) := by
  unfold fullRun
  dsimp only

/-- The extractor's second pass over the same configs, with a different
timestamp and a prior-image map that reproduces each model's previously
materialized image: the output is the first pass with that image installed
and the timestamp replaced. -/
theorem processModelConfigs_second (md5hex : String → String) (root nE1 nE2 : String)
    (fs : FileSys) (E1 E2 : List (String × String)) (cfgs : List (String × ConfigDoc))
    (F : ModelEntry → ModelEntry)
    (hFcore : ∀ e, F e = { e with image := (F e).image })
    (himg : ∀ pc ∈ cfgs, isReleaseConfig pc.2 = false →
      isValidModelConfig pc.2 = true →
      extractImage md5hex fs E2 root pc.2 pc.1 =
        (F (processModelConfig md5hex root nE1 fs E1 pc.2 pc.1
          (findApplicableReleaseConfigs (analyzeConfigFiles cfgs) pc.1))).image) :
    processModelConfigs md5hex root nE2 fs E2 cfgs =
      (processModelConfigs md5hex root nE1 fs E1 cfgs).map
        (fun m => { F m with dateAdded := nE2 }) := by
  unfold processModelConfigs
  dsimp only
  rw [List.map_filterMap]
  apply List.filterMap_congr
  intro pc hpc
  by_cases hrel : isReleaseConfig pc.2 = true
  · simp [hrel]
  · have hrelf : isReleaseConfig pc.2 = false := by simpa using hrel
    by_cases hval : isValidModelConfig pc.2 = true
    · simp only [hrelf, hval, Bool.false_eq_true, if_false, if_true, Option.map_some']
      rw [processModelConfig_split md5hex root nE2 nE1 fs E2 E1 pc.2 pc.1 _,
        himg pc hpc hrelf hval,
        hFcore (processModelConfig md5hex root nE1 fs E1 pc.2 pc.1 _)]
    · have hvalf : isValidModelConfig pc.2 = false := by simpa using hval
      simp [hrelf, hvalf]

/-- The heart of the idempotence analysis: a second full pipeline run fed
the first run's catalog and build cache reproduces the catalog models up
to the regenerated `dateAdded` stamps, keeps the model count and scan
statistics, and performs zero image copies.  `F` abstracts the first
run's materialization map. -/
theorem second_run_core (md5hex : String → String) (root : String) (fs : FileSys)
    (cfgs : List (String × ConfigDoc)) (prior : Option Catalog) (cache : BuildCache)
    (nE1 nB1 nE2 nB2 : String) (d f : Nat) (s : String)
    (hn : ((extractionRun md5hex root nE1 fs prior cfgs d f s).models.map
        ModelEntry.id).Nodup)
    (F : ModelEntry → ModelEntry)
    (hFdef : ∀ e, F e =
      if (categorizeModels md5hex nB1
          (extractionRun md5hex root nE1 fs prior cfgs d f s).models cache).1.any
          (fun mm => mm.id == e.id) = true then
        { e with image := matImage fs e } else e) :
    (fullRun md5hex root fs cfgs
        (some (fullRun md5hex root fs cfgs prior cache nE1 nB1 d f s).1)
        (fullRun md5hex root fs cfgs prior cache nE1 nB1 d f s).2.1
        nE2 nB2 d f s).1.models.map stripDate =
      (fullRun md5hex root fs cfgs prior cache nE1 nB1 d f s).1.models.map
        stripDate ∧
    (fullRun md5hex root fs cfgs
        (some (fullRun md5hex root fs cfgs prior cache nE1 nB1 d f s).1)
        (fullRun md5hex root fs cfgs prior cache nE1 nB1 d f s).2.1
        nE2 nB2 d f s).2.2 = [] ∧
    (fullRun md5hex root fs cfgs
        (some (fullRun md5hex root fs cfgs prior cache nE1 nB1 d f s).1)
        (fullRun md5hex root fs cfgs prior cache nE1 nB1 d f s).2.1
        nE2 nB2 d f s).1.totalCount =
      (fullRun md5hex root fs cfgs prior cache nE1 nB1 d f s).1.totalCount ∧
    (fullRun md5hex root fs cfgs
        (some (fullRun md5hex root fs cfgs prior cache nE1 nB1 d f s).1)
        (fullRun md5hex root fs cfgs prior cache nE1 nB1 d f s).2.1
        nE2 nB2 d f s).1.scanStats =
      (fullRun md5hex root fs cfgs prior cache nE1 nB1 d f s).1.scanStats := by
  -- shorthand facts about F
  have hF1id : ∀ e, (F e).id = e.id := by
    intro e
    rw [hFdef e]
    split <;> rfl
  have hF1core : ∀ e, F e = { e with image := (F e).image } := by
    intro e
    rw [hFdef e]
    split <;> rfl
  -- run-1 categorizer
  obtain ⟨hc11, hc12, hc13, hc14⟩ := categorizeModels_spec md5hex nB1
    (extractionRun md5hex root nE1 fs prior cfgs d f s).models cache hn
  have hnw1 : (((categorizeModels md5hex nB1
      (extractionRun md5hex root nE1 fs prior cfgs d f s).models cache).1).map
      ModelEntry.id).Nodup := by
    rw [hc11]
    exact ((List.filter_sublist _).map ModelEntry.id).nodup hn
  have hgt1 : ∀ mm ∈ (categorizeModels md5hex nB1
      (extractionRun md5hex root nE1 fs prior cfgs d f s).models cache).1,
      getById (extractionRun md5hex root nE1 fs prior cfgs d f s).models mm.id =
        some mm := by
    intro mm hmm
    rw [hc11] at hmm
    exact getById_mem_unique _ hn mm (List.mem_of_mem_filter hmm)
  -- run-1 materializer
  have hmm1 := processModelImages_spec fs
    (categorizeModels md5hex nB1
      (extractionRun md5hex root nE1 fs prior cfgs d f s).models cache).1
    (extractionRun md5hex root nE1 fs prior cfgs d f s).models
    (categorizeModels md5hex nB1
      (extractionRun md5hex root nE1 fs prior cfgs d f s).models cache).2.2
    [] hn hnw1 hgt1
  -- fold the F definition into the materializer equation
  have hmm1F : processModelImages fs
      (categorizeModels md5hex nB1
        (extractionRun md5hex root nE1 fs prior cfgs d f s).models cache).1
      (extractionRun md5hex root nE1 fs prior cfgs d f s).models
      (categorizeModels md5hex nB1
        (extractionRun md5hex root nE1 fs prior cfgs d f s).models cache).2.2
      [] =
      ((extractionRun md5hex root nE1 fs prior cfgs d f s).models.map F,
        (categorizeModels md5hex nB1
          (extractionRun md5hex root nE1 fs prior cfgs d f s).models cache).1.foldl
          (matCacheUpd fs)
          (categorizeModels md5hex nB1
            (extractionRun md5hex root nE1 fs prior cfgs d f s).models cache).2.2,
        [] ++ (categorizeModels md5hex nB1
          (extractionRun md5hex root nE1 fs prior cfgs d f s).models cache).1.filterMap
          (copyOf fs)) := by
    rw [hmm1]
    refine congrArg (fun x => (x, _, _)) ?_
    apply List.map_congr_left
    intro e _
    rw [hFdef e]
  -- the first run's catalog models
  have hcatm : (fullRun md5hex root fs cfgs prior cache nE1 nB1 d f s).1.models =
      (extractionRun md5hex root nE1 fs prior cfgs d f s).models.map F := by
    rw [fullRun_eq]
    show (processModelImages fs
      (categorizeModels md5hex nB1
        (extractionRun md5hex root nE1 fs prior cfgs d f s).models cache).1
      (extractionRun md5hex root nE1 fs prior cfgs d f s).models
      (categorizeModels md5hex nB1
        (extractionRun md5hex root nE1 fs prior cfgs d f s).models cache).2.2
      []).1 = _
    rw [hmm1F]
  -- the first run's cache models
  have hcachem : (fullRun md5hex root fs cfgs prior cache nE1 nB1 d f s).2.1.models =
      ((categorizeModels md5hex nB1
        (extractionRun md5hex root nE1 fs prior cfgs d f s).models cache).1.foldl
        (matCacheUpd fs)
        (categorizeModels md5hex nB1
          (extractionRun md5hex root nE1 fs prior cfgs d f s).models cache).2.2).models := by
    rw [fullRun_eq]
    show (processModelImages fs
      (categorizeModels md5hex nB1
        (extractionRun md5hex root nE1 fs prior cfgs d f s).models cache).1
      (extractionRun md5hex root nE1 fs prior cfgs d f s).models
      (categorizeModels md5hex nB1
        (extractionRun md5hex root nE1 fs prior cfgs d f s).models cache).2.2
      []).2.1.models = _
    rw [hmm1F]
  -- the changed test drives the any-condition
  have hany1 : ∀ e ∈ (extractionRun md5hex root nE1 fs prior cfgs d f s).models,
      ((categorizeModels md5hex nB1
        (extractionRun md5hex root nE1 fs prior cfgs d f s).models cache).1.any
        fun mm => mm.id == e.id) = isChangedModel md5hex cache e := by
    intro e he
    cases hch : isChangedModel md5hex cache e with
    | true =>
      apply List.any_eq_true.mpr
      refine ⟨e, ?_, by simp⟩
      rw [hc11]
      exact List.mem_filter.mpr ⟨he, hch⟩
    | false =>
      apply List.any_eq_false.mpr
      intro mm hmm
      rw [hc11] at hmm
      obtain ⟨hmm2, hmmp⟩ := List.mem_filter.mp hmm
      intro hid0
      have hid : mm.id = e.id := by simpa using hid0
      have heq : mm = e := eq_of_getById _ hn e mm
        (getById_mem_unique _ hn e he) hmm2 hid
      subst heq
      rw [hch] at hmmp
      cases hmmp
  have hFchanged : ∀ e, isChangedModel md5hex cache e = true →
      e ∈ (extractionRun md5hex root nE1 fs prior cfgs d f s).models →
      F e = { e with image := matImage fs e } := by
    intro e hch he
    rw [hFdef e, if_pos (by rw [hany1 e he, hch])]
  have hFunchanged : ∀ e, isChangedModel md5hex cache e = false →
      e ∈ (extractionRun md5hex root nE1 fs prior cfgs d f s).models →
      F e = e := by
    intro e hch he
    rw [hFdef e, if_neg (by rw [hany1 e he, hch]; exact Bool.false_ne_true)]
  -- decompose a first-run entry into its config
  have hmemdecomp : ∀ e ∈ (extractionRun md5hex root nE1 fs prior cfgs d f s).models,
      ∃ pc ∈ cfgs, isReleaseConfig pc.2 = false ∧ isValidModelConfig pc.2 = true ∧
        processModelConfig md5hex root nE1 fs
          (existingOf prior) pc.2 pc.1
          (findApplicableReleaseConfigs (analyzeConfigFiles cfgs) pc.1) = e := by
    intro e he
    have he2 : e ∈ cfgs.filterMap (fun pc =>
        if isReleaseConfig pc.2 = true then none
        else if isValidModelConfig pc.2 = true then
          some (processModelConfig md5hex root nE1 fs
            (existingOf prior) pc.2 pc.1
            (findApplicableReleaseConfigs (analyzeConfigFiles cfgs) pc.1))
        else none) := he
    obtain ⟨pc, hpc, hpc2⟩ := List.mem_filterMap.mp he2
    by_cases hrel : isReleaseConfig pc.2 = true
    · rw [if_pos hrel] at hpc2
      exact absurd hpc2 (by simp)
    · rw [if_neg hrel] at hpc2
      by_cases hval : isValidModelConfig pc.2 = true
      · rw [if_pos hval] at hpc2
        injection hpc2 with he3
        exact ⟨pc, hpc, by simpa using hrel, hval, he3⟩
      · rw [if_neg hval] at hpc2
        exact absurd hpc2 (by simp)
  -- every first-run materialized image is absent or web-shaped and nonempty
  have hshape1 : ∀ e ∈ (extractionRun md5hex root nE1 fs prior cfgs d f s).models,
      (F e).image = none ∨
      ∃ img, (F e).image = some img ∧ img ≠ "" ∧
        (jsStartsWith img "/images/" || jsStartsWith img "http") = true := by
    intro e he
    by_cases hch : isChangedModel md5hex cache e = true
    · rw [hFchanged e hch he]
      obtain ⟨imgM, h1, h2⟩ := matImage_shaped fs e
      exact Or.inr ⟨imgM, h1, shaped_ne_empty h2, h2⟩
    · have hchf : isChangedModel md5hex cache e = false := by simpa using hch
      rw [hFunchanged e hchf he]
      cases hima : e.image with
      | none => exact Or.inl rfl
      | some img1 =>
        obtain ⟨pc, hpc, hrelf, hval, he3⟩ := hmemdecomp e he
        have hne1 : img1 ≠ "" := by
          apply extractImage_ne_empty md5hex fs
            (existingOf prior) root pc.2 pc.1 img1
          rw [← processModelConfig_image md5hex root nE1 fs _ pc.2 pc.1
            (findApplicableReleaseConfigs (analyzeConfigFiles cfgs) pc.1), he3, hima]
        have hsh1 := (isChangedModel_false_facts md5hex cache e hchf).2.1 img1 hima hne1
        exact Or.inr ⟨img1, rfl, hne1, hsh1⟩
  have hids1 : (((extractionRun md5hex root nE1 fs prior cfgs d f s).models.map F).map
      ModelEntry.id) = (extractionRun md5hex root nE1 fs prior cfgs d f s).models.map
      ModelEntry.id := by
    rw [List.map_map]
    exact List.map_congr_left (fun e _ => hF1id e)
  -- the second run's prior-image lookup reproduces each materialized image
  have himg : ∀ pc ∈ cfgs, isReleaseConfig pc.2 = false →
      isValidModelConfig pc.2 = true →
      extractImage md5hex fs
        (imageMapOf (fullRun md5hex root fs cfgs prior cache nE1 nB1 d f s).1)
        root pc.2 pc.1 =
        (F (processModelConfig md5hex root nE1 fs (existingOf prior) pc.2 pc.1
          (findApplicableReleaseConfigs (analyzeConfigFiles cfgs) pc.1))).image := by
    intro pc hpc hrelf hval
    have hmem : processModelConfig md5hex root nE1 fs (existingOf prior) pc.2 pc.1
        (findApplicableReleaseConfigs (analyzeConfigFiles cfgs) pc.1) ∈
        (extractionRun md5hex root nE1 fs prior cfgs d f s).models := by
      show _ ∈ cfgs.filterMap (fun pc =>
        if isReleaseConfig pc.2 = true then none
        else if isValidModelConfig pc.2 = true then
          some (processModelConfig md5hex root nE1 fs (existingOf prior) pc.2 pc.1
            (findApplicableReleaseConfigs (analyzeConfigFiles cfgs) pc.1))
        else none)
      apply List.mem_filterMap.mpr
      refine ⟨pc, hpc, ?_⟩
      rw [if_neg (by simp [hrelf]), if_pos hval]
    have hnodupm : (((fullRun md5hex root fs cfgs prior cache nE1 nB1 d f s).1).models.map
        ModelEntry.id).Nodup := by
      rw [hcatm, hids1]
      exact hn
    have hmemm : F (processModelConfig md5hex root nE1 fs (existingOf prior) pc.2 pc.1
        (findApplicableReleaseConfigs (analyzeConfigFiles cfgs) pc.1)) ∈
        (fullRun md5hex root fs cfgs prior cache nE1 nB1 d f s).1.models := by
      rw [hcatm]
      exact List.mem_map_of_mem F hmem
    have hkid : (F (processModelConfig md5hex root nE1 fs (existingOf prior) pc.2 pc.1
        (findApplicableReleaseConfigs (analyzeConfigFiles cfgs) pc.1))).id =
        modelIdOf md5hex root pc.2 pc.1 := by
      rw [hF1id, processModelConfig_id]
    have hlook := lookupLast_imageMapOf
      (fullRun md5hex root fs cfgs prior cache nE1 nB1 d f s).1 hnodupm
      (F (processModelConfig md5hex root nE1 fs (existingOf prior) pc.2 pc.1
        (findApplicableReleaseConfigs (analyzeConfigFiles cfgs) pc.1))) hmemm
      (by rw [hkid]; exact modelIdOf_ne_empty md5hex root pc.2 pc.1)
    rw [hkid] at hlook
    rcases hshape1 _ hmem with hno | ⟨img, heqi, hnei, hshi⟩
    · have hlook2 : lookupLast
          (imageMapOf (fullRun md5hex root fs cfgs prior cache nE1 nB1 d f s).1)
          (modelIdOf md5hex root pc.2 pc.1) = none := by
        rw [hlook, hno]
      rw [extractImage_of_lookup_none md5hex fs _ root pc.2 pc.1 hlook2, hno]
      by_cases hch : isChangedModel md5hex cache (processModelConfig md5hex root nE1 fs
          (existingOf prior) pc.2 pc.1
          (findApplicableReleaseConfigs (analyzeConfigFiles cfgs) pc.1)) = true
      · exfalso
        rw [hFchanged _ hch hmem] at hno
        obtain ⟨imgM, h1, _⟩ := matImage_shaped fs (processModelConfig md5hex root nE1 fs
          (existingOf prior) pc.2 pc.1
          (findApplicableReleaseConfigs (analyzeConfigFiles cfgs) pc.1))
        have h2 : matImage fs (processModelConfig md5hex root nE1 fs
            (existingOf prior) pc.2 pc.1
            (findApplicableReleaseConfigs (analyzeConfigFiles cfgs) pc.1)) = none := hno
        rw [h1] at h2
        cases h2
      · have hchf : isChangedModel md5hex cache (processModelConfig md5hex root nE1 fs
            (existingOf prior) pc.2 pc.1
            (findApplicableReleaseConfigs (analyzeConfigFiles cfgs) pc.1)) = false := by
          simpa using hch
        rw [hFunchanged _ hchf hmem] at hno
        apply extractImage_none md5hex fs (existingOf prior) root pc.2 pc.1
        rw [← processModelConfig_image md5hex root nE1 fs (existingOf prior) pc.2 pc.1
          (findApplicableReleaseConfigs (analyzeConfigFiles cfgs) pc.1)]
        exact hno
    · have hlook2 : lookupLast
          (imageMapOf (fullRun md5hex root fs cfgs prior cache nE1 nB1 d f s).1)
          (modelIdOf md5hex root pc.2 pc.1) = some img := by
        have h3 : lookupLast
            (imageMapOf (fullRun md5hex root fs cfgs prior cache nE1 nB1 d f s).1)
            (modelIdOf md5hex root pc.2 pc.1) =
            if img = "" then none else some img := by
          rw [hlook, heqi]
        rw [h3, if_neg hnei]
      rw [extractImage_of_lookup_shaped md5hex fs _ root pc.2 pc.1 img hlook2 hshi, heqi]
  -- the second extraction is the first materialized catalog restamped
  have hsecond := processModelConfigs_second md5hex root nE1 nE2 fs (existingOf prior)
    (imageMapOf (fullRun md5hex root fs cfgs prior cache nE1 nB1 d f s).1) cfgs
    F hF1core himg
  have hm2 : (extractionRun md5hex root nE2 fs
      (some (fullRun md5hex root fs cfgs prior cache nE1 nB1 d f s).1) cfgs d f s).models =
      (extractionRun md5hex root nE1 fs prior cfgs d f s).models.map
        (fun m => { F m with dateAdded := nE2 }) := by
    show processModelConfigs md5hex root nE2 fs
      (imageMapOf (fullRun md5hex root fs cfgs prior cache nE1 nB1 d f s).1) cfgs = _
    exact hsecond
  have hGid : ∀ e : ModelEntry, ({ F e with dateAdded := nE2 } : ModelEntry).id = e.id := by
    intro e
    show (F e).id = e.id
    exact hF1id e
  have hids2 : (((extractionRun md5hex root nE1 fs prior cfgs d f s).models.map
      (fun m => { F m with dateAdded := nE2 })).map ModelEntry.id) =
      (extractionRun md5hex root nE1 fs prior cfgs d f s).models.map ModelEntry.id := by
    rw [List.map_map]
    exact List.map_congr_left (fun e _ => hGid e)
  have hn2 : (((extractionRun md5hex root nE1 fs prior cfgs d f s).models.map
      (fun m => { F m with dateAdded := nE2 })).map ModelEntry.id).Nodup := by
    rw [hids2]
    exact hn
  have hltrans : ∀ k : String,
      (((fullRun md5hex root fs cfgs prior cache nE1 nB1 d f s).2.1.models.lookup k).map
        CacheEntry.hash) =
      ((((categorizeModels md5hex nB1
        (extractionRun md5hex root nE1 fs prior cfgs d f s).models cache).2.2).models.lookup
        k).map CacheEntry.hash) := by
    intro k
    rw [hcachem]
    exact foldl_matCacheUpd_hash fs _ _ k
  have hcache2 : ∀ e ∈ (extractionRun md5hex root nE1 fs prior cfgs d f s).models,
      ∃ ce, (fullRun md5hex root fs cfgs prior cache nE1 nB1 d f s).2.1.models.lookup e.id =
        some ce ∧ ce.hash = calculateModelHash md5hex e := by
    intro e he
    obtain ⟨ce, hce1, hce2⟩ := hc13 e he
    have h1 := hltrans e.id
    rw [hce1] at h1
    cases hl2 : (fullRun md5hex root fs cfgs prior cache nE1 nB1
        d f s).2.1.models.lookup e.id with
    | none =>
      rw [hl2] at h1
      exact absurd h1 (by simp)
    | some ce2 =>
      rw [hl2] at h1
      simp only [Option.map_some'] at h1
      injection h1 with h2
      exact ⟨ce2, rfl, by rw [h2, hce2]⟩
  have hGhash : ∀ e, calculateModelHash md5hex { F e with dateAdded := nE2 } =
      calculateModelHash md5hex e := by
    intro e
    rw [hF1core e]
    exact calculateModelHash_frame md5hex e ((F e).image) nE2
  have hch2 : ∀ e ∈ (extractionRun md5hex root nE1 fs prior cfgs d f s).models,
      isChangedModel md5hex (fullRun md5hex root fs cfgs prior cache nE1 nB1 d f s).2.1
        { F e with dateAdded := nE2 } =
      (({ F e with dateAdded := nE2 } : ModelEntry).image == some placeholderPath) := by
    intro e he
    obtain ⟨ce, hce1, hce2⟩ := hcache2 e he
    apply isChangedModel_eval md5hex _ _ ce
    · show (fullRun md5hex root fs cfgs prior cache nE1 nB1 d f s).2.1.models.lookup
        (({ F e with dateAdded := nE2 } : ModelEntry).id) = some ce
      rw [hGid e]
      exact hce1
    · rw [hce2]
      exact (hGhash e).symm
    · rcases hshape1 e he with hno | ⟨img, heqi, hnei, hshi⟩
      · left
        show (F e).image = none
        exact hno
      · right
        exact ⟨img, heqi, hshi⟩
  obtain ⟨hc21, hc22, hc23, hc24⟩ := categorizeModels_spec md5hex nB2
    ((extractionRun md5hex root nE1 fs prior cfgs d f s).models.map
      (fun m => { F m with dateAdded := nE2 }))
    (fullRun md5hex root fs cfgs prior cache nE1 nB1 d f s).2.1 hn2
  have hnw2shape : ∀ mm ∈ (categorizeModels md5hex nB2
      ((extractionRun md5hex root nE1 fs prior cfgs d f s).models.map
        (fun m => { F m with dateAdded := nE2 }))
      (fullRun md5hex root fs cfgs prior cache nE1 nB1 d f s).2.1).1,
      ∃ img, mm.image = some img ∧ img ≠ "" ∧
        (jsStartsWith img "/images/" || jsStartsWith img "http") = true := by
    intro mm hmm
    rw [hc21] at hmm
    obtain ⟨hmem2, hp2⟩ := List.mem_filter.mp hmm
    obtain ⟨e, he, hGe⟩ := List.mem_map.mp hmem2
    subst hGe
    rw [hch2 e he] at hp2
    have hpl : ({ F e with dateAdded := nE2 } : ModelEntry).image = some placeholderPath := by
      simpa using hp2
    exact ⟨placeholderPath, hpl, by decide, by decide⟩
  have hnoop := processModelImages_noop fs
    (categorizeModels md5hex nB2
      ((extractionRun md5hex root nE1 fs prior cfgs d f s).models.map
        (fun m => { F m with dateAdded := nE2 }))
      (fullRun md5hex root fs cfgs prior cache nE1 nB1 d f s).2.1).1
    ((extractionRun md5hex root nE1 fs prior cfgs d f s).models.map
      (fun m => { F m with dateAdded := nE2 }))
    (categorizeModels md5hex nB2
      ((extractionRun md5hex root nE1 fs prior cfgs d f s).models.map
        (fun m => { F m with dateAdded := nE2 }))
      (fullRun md5hex root fs cfgs prior cache nE1 nB1 d f s).2.1).2.2
    [] hnw2shape
  have hr2models : (fullRun md5hex root fs cfgs
      (some (fullRun md5hex root fs cfgs prior cache nE1 nB1 d f s).1)
      (fullRun md5hex root fs cfgs prior cache nE1 nB1 d f s).2.1
      nE2 nB2 d f s).1.models =
      (extractionRun md5hex root nE1 fs prior cfgs d f s).models.map
        (fun m => { F m with dateAdded := nE2 }) := by
    rw [fullRun_eq]
    show (processModelImages fs
      (categorizeModels md5hex nB2
        (extractionRun md5hex root nE2 fs
          (some (fullRun md5hex root fs cfgs prior cache nE1 nB1 d f s).1) cfgs d f s).models
        (fullRun md5hex root fs cfgs prior cache nE1 nB1 d f s).2.1).1
      (extractionRun md5hex root nE2 fs
        (some (fullRun md5hex root fs cfgs prior cache nE1 nB1 d f s).1) cfgs d f s).models
      (categorizeModels md5hex nB2
        (extractionRun md5hex root nE2 fs
          (some (fullRun md5hex root fs cfgs prior cache nE1 nB1 d f s).1) cfgs d f s).models
        (fullRun md5hex root fs cfgs prior cache nE1 nB1 d f s).2.1).2.2
      []).1 = _
    rw [hm2, hnoop]
  refine ⟨?_, ?_, ?_, ?_⟩
  · rw [hr2models, hcatm, List.map_map, List.map_map]
    apply List.map_congr_left
    intro e _
    rfl
  · rw [fullRun_eq]
    show (processModelImages fs
      (categorizeModels md5hex nB2
        (extractionRun md5hex root nE2 fs
          (some (fullRun md5hex root fs cfgs prior cache nE1 nB1 d f s).1) cfgs d f s).models
        (fullRun md5hex root fs cfgs prior cache nE1 nB1 d f s).2.1).1
      (extractionRun md5hex root nE2 fs
        (some (fullRun md5hex root fs cfgs prior cache nE1 nB1 d f s).1) cfgs d f s).models
      (categorizeModels md5hex nB2
        (extractionRun md5hex root nE2 fs
          (some (fullRun md5hex root fs cfgs prior cache nE1 nB1 d f s).1) cfgs d f s).models
        (fullRun md5hex root fs cfgs prior cache nE1 nB1 d f s).2.1).2.2
      []).2.2 = []
    rw [hm2, hnoop]
  · have h1 : (fullRun md5hex root fs cfgs
        (some (fullRun md5hex root fs cfgs prior cache nE1 nB1 d f s).1)
        (fullRun md5hex root fs cfgs prior cache nE1 nB1 d f s).2.1
        nE2 nB2 d f s).1.totalCount =
        (extractionRun md5hex root nE2 fs
          (some (fullRun md5hex root fs cfgs prior cache nE1 nB1 d f s).1)
          cfgs d f s).models.length := by
      rw [fullRun_eq]
      rfl
    have h2 : (fullRun md5hex root fs cfgs prior cache nE1 nB1 d f s).1.totalCount =
        (extractionRun md5hex root nE1 fs prior cfgs d f s).models.length := by
      rw [fullRun_eq]
      rfl
    rw [h1, h2, congrArg List.length hm2, List.length_map]
  · have h1 : (fullRun md5hex root fs cfgs
        (some (fullRun md5hex root fs cfgs prior cache nE1 nB1 d f s).1)
        (fullRun md5hex root fs cfgs prior cache nE1 nB1 d f s).2.1
        nE2 nB2 d f s).1.scanStats =
        (extractionRun md5hex root nE2 fs
          (some (fullRun md5hex root fs cfgs prior cache nE1 nB1 d f s).1)
          cfgs d f s).scanStats := by
      rw [fullRun_eq]
    have h2 : (fullRun md5hex root fs cfgs prior cache nE1 nB1 d f s).1.scanStats =
        (extractionRun md5hex root nE1 fs prior cfgs d f s).scanStats := by
      rw [fullRun_eq]
    rw [h1, h2]
    rfl

/-- C1 counterexample: a second full pipeline run against the unchanged
source tree, the first run's Catalog, and the first run's BuildCache does
not reproduce every per-model field: `dateAdded` is regenerated with the
second run's timestamp, so the catalogs differ. -/
theorem second_run_not_byte_identical :
    (fullRun mdConstHash "/r" emptyFs goblinCfgs
        (some (fullRun mdConstHash "/r" emptyFs goblinCfgs none ⟨[], none⟩
          "T1" "B1" 0 0 "0").1)
        (fullRun mdConstHash "/r" emptyFs goblinCfgs none ⟨[], none⟩
          "T1" "B1" 0 0 "0").2.1
        "T2" "B2" 0 0 "0").1.models.map ModelEntry.dateAdded = ["T2"] ∧
      (fullRun mdConstHash "/r" emptyFs goblinCfgs none ⟨[], none⟩
        "T1" "B1" 0 0 "0").1.models.map ModelEntry.dateAdded = ["T1"] ∧
      (fullRun mdConstHash "/r" emptyFs goblinCfgs
        (some (fullRun mdConstHash "/r" emptyFs goblinCfgs none ⟨[], none⟩
          "T1" "B1" 0 0 "0").1)
        (fullRun mdConstHash "/r" emptyFs goblinCfgs none ⟨[], none⟩
          "T1" "B1" 0 0 "0").2.1
        "T2" "B2" 0 0 "0").1.models ≠
        (fullRun mdConstHash "/r" emptyFs goblinCfgs none ⟨[], none⟩
          "T1" "B1" 0 0 "0").1.models := by
  exact ⟨by decide, by decide, by decide⟩

/-- C1 (amended): a second full pipeline run against an unchanged source
tree, the prior Catalog, and the prior BuildCache produces a Catalog whose
models are byte-identical to the first run's except for the regenerated
`dateAdded` field, with the same model count and scan statistics, and
performs zero new image copies; `dateAdded` is not reproduced: it is
restamped with the second run's extraction timestamp. -/
theorem pipeline_second_run (md5hex : String → String) (root : String)
    (fs : FileSys) (cfgs : List (String × ConfigDoc)) (prior : Option Catalog)
    (cache : BuildCache) (nE1 nB1 nE2 nB2 : String) (d f : Nat) (s : String)
    (hn : ((extractionRun md5hex root nE1 fs prior cfgs d f s).models.map
        ModelEntry.id).Nodup) :
    (fullRun md5hex root fs cfgs
        (some (fullRun md5hex root fs cfgs prior cache nE1 nB1 d f s).1)
        (fullRun md5hex root fs cfgs prior cache nE1 nB1 d f s).2.1
        nE2 nB2 d f s).1.models.map stripDate =
      (fullRun md5hex root fs cfgs prior cache nE1 nB1 d f s).1.models.map
        stripDate ∧
    (fullRun md5hex root fs cfgs
        (some (fullRun md5hex root fs cfgs prior cache nE1 nB1 d f s).1)
        (fullRun md5hex root fs cfgs prior cache nE1 nB1 d f s).2.1
        nE2 nB2 d f s).2.2 = [] ∧
    (fullRun md5hex root fs cfgs
        (some (fullRun md5hex root fs cfgs prior cache nE1 nB1 d f s).1)
        (fullRun md5hex root fs cfgs prior cache nE1 nB1 d f s).2.1
        nE2 nB2 d f s).1.totalCount =
      (fullRun md5hex root fs cfgs prior cache nE1 nB1 d f s).1.totalCount ∧
    (fullRun md5hex root fs cfgs
        (some (fullRun md5hex root fs cfgs prior cache nE1 nB1 d f s).1)
        (fullRun md5hex root fs cfgs prior cache nE1 nB1 d f s).2.1
        nE2 nB2 d f s).1.scanStats =
      (fullRun md5hex root fs cfgs prior cache nE1 nB1 d f s).1.scanStats :=
  second_run_core md5hex root fs cfgs prior cache nE1 nB1 nE2 nB2 d f s hn
    (fun e => if (categorizeModels md5hex nB1
        (extractionRun md5hex root nE1 fs prior cfgs d f s).models cache).1.any
        (fun mm => mm.id == e.id) = true then
      { e with image := matImage fs e } else e)
    (fun _ => rfl)

/-- C1 witness: the amended idempotence property at a concrete one-model
tree; the second run performs zero image copies. -/
theorem pipeline_second_run_witness :
    (fullRun mdConstHash "/r" emptyFs goblinCfgs
        (some (fullRun mdConstHash "/r" emptyFs goblinCfgs none ⟨[], none⟩
          "T1" "B1" 0 0 "0").1)
        (fullRun mdConstHash "/r" emptyFs goblinCfgs none ⟨[], none⟩
          "T1" "B1" 0 0 "0").2.1
        "T2" "B2" 0 0 "0").2.2 = [] :=
  (pipeline_second_run mdConstHash "/r" emptyFs goblinCfgs none ⟨[], none⟩
    "T1" "B1" "T2" "B2" 0 0 "0" (by decide)).2.1

end ModelsBrowser
